import Mathlib

/-!
Verification of BullBearLib against its specification.

The repository is a collection of JavaScript trading scripts built on one
shared SDK wrapper (`lib.js`) plus per-strategy files
(`strategies/rmm-strategy.js`, `strategies/yield-harvester.js`, the
funding-rate-arbitrage strategy, ...).  This file shallowly embeds the
functions the specification talks about and proves or refutes the
specification's claims about them.

Modelling conventions:
* A JavaScript computation that may `throw` is embedded as
  `Except String α`, the `String` being the thrown error's `.message`.
  `try { .. } catch (e) { .. }` becomes `Except.tryCatch`.
* External effects (contract queries, contract executions, the wallet
  client) are parameters of type `Except String τ`: the outcome the
  external call would have had.  The embedded function is then a pure
  function of those outcomes.
* `console.log` / `console.error` output is collected in a `List String`
  where the claim mentions logging.
* JavaScript numbers are embedded as `ℚ` (the scripts only perform field
  arithmetic and comparisons on them); machine floating point rounding is
  outside the scope of this embedding.
* JavaScript strings are embedded as `String`, or as `List Char` where
  character-level processing (JSON parsing) is modelled.
-/


namespace BullBear

/-- Outcome of a JavaScript computation: a normal return value, or a thrown
error carrying the error message (`err.message`). -/
abbrev JS (α : Type) := Except String α

/-- `lib.js` `openPosition(assets, leverage, collateral)`: executes the
`open_position` contract message (outcome `exec`), logs and returns the
transaction result; on any thrown error it logs the message and returns
`null`.  The returned pair is (value, console output). -/
def openPosition {τ : Type} (exec : JS τ) : JS (Option τ × List String) :=
  Except.tryCatch
    (do
      let result ← exec
      pure (some result, ["Position Opened"]))
    (fun e => pure (none, ["Error opening position: " ++ e]))

/-- `lib.js` `closePosition(positionId)`: executes the `close` contract
message (outcome `exec`), logs and returns the transaction result; on any
thrown error it logs the message and returns `null`. -/
def closePosition {τ : Type} (exec : JS τ) : JS (Option τ × List String) :=
  Except.tryCatch
    (do
      let result ← exec
      pure (some result, ["Position Closed"]))
    (fun e => pure (none, ["Error closing position: " ++ e]))

/-- `lib.js` `getPositions(address)`: queries `user_positions_new` (outcome
`query`) and returns the positions array; on any thrown error it logs the
message and returns the empty array. -/
def getPositions {π : Type} (query : JS (List π)) : JS (List π × List String) :=
  Except.tryCatch
    (do
      let positions ← query
      pure (positions, []))
    (fun e => pure ([], ["Error getting positions: " ++ e]))

/-- The numeric value of a cosmjs balance reply: `balance.amount` coerces to
a number (`none` models a non-numeric `amount`, whose quotient is `NaN`). -/
structure BalanceReply where
  amount : Option ℚ

/-- `lib.js`: `DIVISOR = 1_000_000`. -/
def DIVISOR : ℚ := 1000000

/-- `balance.amount / DIVISOR || 0` — division result, with the `|| 0`
turning a `NaN` quotient (non-numeric amount) into `0`. -/
def amountValue (amount : Option ℚ) : ℚ :=
  match amount with
  | some a => a / DIVISOR
  | none => 0

/-- `lib.js` `getBalance(denom)`: queries the bank balance (outcome
`query`) and returns `balance.amount / DIVISOR || 0`; on any thrown error
it logs the message and returns `0`. -/
def getBalance (query : JS BalanceReply) : JS (ℚ × List String) :=
  Except.tryCatch
    (do
      let balance ← query
      pure (amountValue balance.amount, []))
    (fun e => pure (0, ["Error getting balance: " ++ e]))

/-- A market record as returned by the `markets` contract query, with the
fields `lib.js` `getMarkets` reads. -/
structure RawMarket where
  denom : String
  display : String
  enabled : Bool
  deriving DecidableEq

/-- An element of the list `getMarkets()` returns: exactly the two fields
`denom` and `display`. -/
structure MarketEntry where
  denom : String
  display : String
  deriving DecidableEq

/-- The `fetchMarkets` closure inside `lib.js` `getMarkets()`: filter the
contract's market list down to the `enabled` ones and keep only
`denom` and `display` of each. -/
def fetchMarkets (markets : List RawMarket) : List MarketEntry :=
  (markets.filter fun market => market.enabled).map
    fun market => { denom := market.denom, display := market.display }

/-- A market record of the `MARS.PERPS` `markets` query, with the fields
`lib.js` `getFundingRates` reads.  `current_funding_rate` is the numeric
value of the contract's decimal string; `none` models the field being
absent (the code substitutes `0` via `|| 0`). -/
structure RawRate where
  denom : String
  current_funding_rate : Option ℚ
  long_oi_value : String
  short_oi_value : String
  deriving DecidableEq

/-- A value of the mapping `getFundingRates()` returns. -/
structure FundingEntry where
  fundingRate : ℚ
  longOI : String
  shortOI : String
  deriving DecidableEq

/-- JavaScript property assignment `m[k] = v` on an object embedded as an
association list: replace the value if the key is present, otherwise
append the new key at the end. -/
def jsSet {β : Type} (m : List (String × β)) (k : String) (v : β) :
    List (String × β) :=
  if m.any fun p => p.1 == k then
    m.map fun p => if p.1 == k then (k, v) else p
  else
    m ++ [(k, v)]

/-- The entry `getFundingRates` builds for one rate record:
`fundingRate: parseFloat(rate.current_funding_rate || 0) * 365 * 100`,
`longOI`/`shortOI` copied unchanged. -/
def rateEntry (r : RawRate) : FundingEntry :=
  { fundingRate := r.current_funding_rate.getD 0 * 365 * 100
    longOI := r.long_oi_value
    shortOI := r.short_oi_value }

/-- The `fetchFundingRates` closure inside `lib.js` `getFundingRates()`:
`for (const rate of rates.data) fundingData[rate.denom] = rateEntry rate`. -/
def fetchFundingRates (rates : List RawRate) : List (String × FundingEntry) :=
  rates.foldl (fun acc r => jsSet acc r.denom (rateEntry r)) []

/-- Observable blockchain-facing events emitted while a strategy runs:
contract executions, `setTimeout` sleeps, and wallet-client refreshes. -/
inductive Ev where
  | execOpen
  | execClose
  | sleep (ms : Nat)
  | refreshClient
  deriving DecidableEq

/-- JavaScript `hay.includes(needle)`: `needle` occurs contiguously in
`hay`. -/
def strIncludes (hay needle : String) : Bool :=
  (List.range (hay.length + 1)).any fun i => needle.toList.isPrefixOf (hay.toList.drop i)

/-- The retry guard copy-pasted into every strategy's open/close wrapper:
`err.message && err.message.includes("account sequence mismatch") && attempt < 2`. -/
def seqMismatchRetry (e : String) (attempt : Nat) : Bool :=
  (e != "") && strIncludes e "account sequence mismatch" && decide (attempt < 2)

/-- `rmm-strategy.js` `openRMMPosition(client, assets, attempt)` with
`CONFIG.DRY_RUN = false`: calls `lib.js` `openPosition` (whose underlying
execution outcome at try number `n` is `execs n`) inside a try/catch whose
catch sleeps 10 s, refreshes the client and retries on an
"account sequence mismatch" message while `attempt < 2`, and rethrows any
other error.  Returns the value (`.error` = the wrapper itself throws) and
the list of emitted events. -/
def openRMMPosition {τ : Type} (execs : Nat → JS τ) (attempt : Nat) :
    JS (Option τ) × List Ev :=
  match openPosition (execs attempt) with
  | .ok (v, _logs) => (.ok v, [Ev.execOpen])
  | .error e =>
    if hretry : seqMismatchRetry e attempt = true then
      let r := openRMMPosition execs (attempt + 1)
      (r.1, Ev.execOpen :: Ev.sleep 10000 :: Ev.refreshClient :: r.2)
    else
      (.error e, [Ev.execOpen])
termination_by 2 - attempt
decreasing_by
  simp only [seqMismatchRetry, Bool.and_eq_true, decide_eq_true_eq] at hretry
  omega

/-- `yield-harvester.js` `openYieldPosition(opportunity, attempt)` with
`CONFIG.DRY_RUN = false`: same shape as `openRMMPosition` (call `lib.js`
`openPosition`, retry on sequence mismatch, rethrow otherwise). -/
def openYieldPosition {τ : Type} (execs : Nat → JS τ) (attempt : Nat) :
    JS (Option τ) × List Ev :=
  match openPosition (execs attempt) with
  | .ok (v, _logs) => (.ok v, [Ev.execOpen])
  | .error e =>
    if hretry : seqMismatchRetry e attempt = true then
      let r := openYieldPosition execs (attempt + 1)
      (r.1, Ev.execOpen :: Ev.sleep 10000 :: Ev.refreshClient :: r.2)
    else
      (.error e, [Ev.execOpen])
termination_by 2 - attempt
decreasing_by
  simp only [seqMismatchRetry, Bool.and_eq_true, decide_eq_true_eq] at hretry
  omega

/-- `yield-harvester.js` `closeYieldPosition(positionId, attempt)` with
`CONFIG.DRY_RUN = false`: calls `lib.js` `closePosition` with the same
sequence-mismatch retry/rethrow catch. -/
def closeYieldPosition {τ : Type} (execs : Nat → JS τ) (attempt : Nat) :
    JS (Option τ) × List Ev :=
  match closePosition (execs attempt) with
  | .ok (v, _logs) => (.ok v, [Ev.execClose])
  | .error e =>
    if hretry : seqMismatchRetry e attempt = true then
      let r := closeYieldPosition execs (attempt + 1)
      (r.1, Ev.execClose :: Ev.sleep 10000 :: Ev.refreshClient :: r.2)
    else
      (.error e, [Ev.execClose])
termination_by 2 - attempt
decreasing_by
  simp only [seqMismatchRetry, Bool.and_eq_true, decide_eq_true_eq] at hretry
  omega

/-- Result of the funding-rate-arbitrage strategy's `openFRAPosition`:
either the transaction result, or the error object
`{ error: true, message?, denom }` it returns instead of throwing
(`none` message models the `!result` branch). -/
inductive FRAOpenResult (τ : Type) where
  | success (r : τ)
  | errObj (msg : Option String)
  deriving DecidableEq

/-- The FRA strategy's `openFRAPosition(assets, leverage, attempt)` with
`CONFIG.DRY_RUN = false`: calls `lib.js` `openPosition`; a `null` result
becomes an error object; the catch retries on sequence mismatch while
`attempt < 2` and otherwise returns an error object instead of
rethrowing. -/
def openFRAPosition {τ : Type} (execs : Nat → JS τ) (attempt : Nat) :
    FRAOpenResult τ × List Ev :=
  match openPosition (execs attempt) with
  | .ok (some r, _logs) => (.success r, [Ev.execOpen])
  | .ok (none, _logs) => (.errObj none, [Ev.execOpen])
  | .error e =>
    if hretry : seqMismatchRetry e attempt = true then
      let r := openFRAPosition execs (attempt + 1)
      (r.1, Ev.execOpen :: Ev.sleep 10000 :: Ev.refreshClient :: r.2)
    else
      (.errObj (some e), [Ev.execOpen])
termination_by 2 - attempt
decreasing_by
  simp only [seqMismatchRetry, Bool.and_eq_true, decide_eq_true_eq] at hretry
  omega

/-- The event trace of the position-opening loop at the end of
`rmm-strategy.js` `managePositions`: for each opportunity taken, the loop
body calls `openRMMPosition` (trade recording and state saving emit no
blockchain events); there is no statement between consecutive
iterations. -/
def rmmOpeningLoopTrace {τ : Type} (execs : List (Nat → JS τ)) : List Ev :=
  execs.flatMap fun exec => (openRMMPosition exec 0).2

/-- The event trace of the position-opening loop at the end of
`yield-harvester.js` `managePositions`: one `openYieldPosition` call per
opportunity taken, nothing between iterations. -/
def yhOpeningLoopTrace {τ : Type} (execs : List (Nat → JS τ)) : List Ev :=
  execs.flatMap fun exec => (openYieldPosition exec 0).2

/-- The position-opening loop of the FRA strategy's `managePositions`
(`for (let i = 0; ...)`): every iteration after the first begins with
`await setTimeout(..., 20000)` followed by a `getClient()` refresh, then
`openFRAPosition` runs. -/
def fraOpeningLoop {τ : Type} (i : Nat) : List (Nat → JS τ) → List Ev
  | [] => []
  | exec :: rest =>
    (if 0 < i then [Ev.sleep 20000, Ev.refreshClient] else []) ++
      (openFRAPosition exec 0).2 ++ fraOpeningLoop (i + 1) rest

/-- The FRA opening loop's event trace, started at index 0. -/
def fraOpeningLoopTrace {τ : Type} (execs : List (Nat → JS τ)) : List Ev :=
  fraOpeningLoop 0 execs

/-- The concrete two-market list used by the C4 witness. -/
def marketListW : List RawMarket :=
  [{ denom := "perps/ubtc", display := "BTC", enabled := true },
   { denom := "perps/ueth", display := "ETH", enabled := false }]

/-- The concrete rate record used by the C5 witness. -/
def rateW : RawRate :=
  { denom := "perps/uakt", current_funding_rate := some (1/2000),
    long_oi_value := "3969947062", short_oi_value := "6066533265" }

/-- JavaScript property read `m[k]` on an object embedded as an
association list. -/
def jsGet {β : Type} (m : List (String × β)) (k : String) : Option β :=
  (m.find? fun p => p.1 == k).map fun p => p.2

end BullBear

namespace BullBear.RMM

/-- One entry of a denom's price history: `{ timestamp, price }`, the
price being the numeric value of the stored price string (`parseFloat`
of a numeric string is modelled as that value). -/
structure PricePoint where
  timestamp : Nat
  price : ℚ
  deriving DecidableEq

/-- One asset leg of an RMM position (`{ denom, long, percent }`). -/
structure RMMAsset where
  denom : String
  long : Bool
  percent : ℚ
  deriving DecidableEq

/-- The per-position record rmm-strategy keeps in `state.positions`. -/
structure RMMPositionState where
  createdAt : Nat
  assets : List RMMAsset
  entryPrices : List (String × ℚ)
  deriving DecidableEq

/-- The persisted RMM strategy state (`rmm-state.json`). -/
structure RMMState where
  positions : List (String × RMMPositionState)
  priceHistory : List (String × List PricePoint)
  lastRotation : Nat
  assetBlacklist : List String
  deriving DecidableEq

/-- rmm-strategy `CONFIG.MAX_POSITIONS`. -/
def MAX_POSITIONS : Nat := 3

/-- rmm-strategy `CONFIG.MIN_PRICE_CHANGE` (0.0001). -/
def MIN_PRICE_CHANGE : ℚ := 1/10000

/-- rmm-strategy `CONFIG.PRICE_HISTORY_LENGTH`. -/
def PRICE_HISTORY_LENGTH : Nat := 2

/-- rmm-strategy `CONFIG.ROTATION_DELAY_MINUTES`. -/
def ROTATION_DELAY_MINUTES : ℚ := 5

/-- rmm-strategy `CONFIG.FORCE_TRADE`. -/
def FORCE_TRADE : Bool := true

/-- rmm-strategy `CONFIG.IGNORE_BLACKLIST`. -/
def IGNORE_BLACKLIST : Bool := true

/-- rmm-strategy `calculatePriceChange(priceHistory)`: relative change
from the oldest to the newest entry; `0` when there are fewer than two
entries or the oldest price is `0`. -/
def calculatePriceChange : List PricePoint → ℚ
  | [] => 0
  | [_] => 0
  | p0 :: p1 :: rest =>
    let oldest := p0.price
    let newest := ((p1 :: rest).getLastD p1).price
    if oldest = 0 then 0 else (newest - oldest) / oldest

/-- An opportunity pushed by `findDemoOpportunities`; `long` is the
boolean form of the "long"/"short" direction string. -/
structure Opportunity where
  denom : String
  long : Bool
  priceChange : ℚ
  strength : ℚ
  forcedTrade : Bool
  latestPrice : ℚ
  deriving DecidableEq

/-- The rotation check at the top of `findDemoOpportunities`: when more
than `ROTATION_DELAY_MINUTES` minutes have passed since
`state.lastRotation`, the blacklist is cleared and `lastRotation` set to
`now`. -/
def rotateIfDue (state : RMMState) (now : Nat) : RMMState :=
  if ((now : ℚ) - (state.lastRotation : ℚ)) / (1000 * 60) > ROTATION_DELAY_MINUTES then
    { state with assetBlacklist := [], lastRotation := now }
  else state

/-- The first pass of `findDemoOpportunities` for one market: skip when
the denom is blacklisted (but `IGNORE_BLACKLIST` disables the check) or
when its price history is missing or too short; otherwise the direction
comes from the price change, or — `FORCE_TRADE` being on — from the
funding-rate sign or from the random draw `coin denom`
(`Math.random() > 0.5`), and the opportunity is scored. -/
def firstPassOpp (state : RMMState) (fundingRates : List (String × FundingEntry))
    (coin : String → Bool) (market : MarketEntry) : Option Opportunity :=
  let denom := market.denom
  if state.assetBlacklist.contains denom && !IGNORE_BLACKLIST then none
  else
    match jsGet state.priceHistory denom with
    | none => none
    | some ph =>
      if ph.length < PRICE_HISTORY_LENGTH then none
      else
        let priceChange := calculatePriceChange ph
        let dir : Option (Bool × Bool) :=
          if priceChange > MIN_PRICE_CHANGE then some (true, false)
          else if priceChange < -MIN_PRICE_CHANGE then some (false, false)
          else if FORCE_TRADE then
            match jsGet fundingRates denom with
            | some fr => some (decide (fr.fundingRate < 0), true)
            | none => some (coin denom, true)
          else none
        match dir with
        | none => none
        | some (long, forced) =>
          let base : ℚ := if forced then 1/10 else |priceChange|
          let strength : ℚ :=
            match jsGet fundingRates denom with
            | some fr =>
              if (long && decide (fr.fundingRate < 0)) ||
                  (!long && decide (fr.fundingRate > 0)) then
                base + |fr.fundingRate| / 100
              else base
            | none => base
          some { denom := denom, long := long, priceChange := priceChange,
                 strength := strength, forcedTrade := forced,
                 latestPrice := (ph.getLastD { timestamp := 0, price := 0 }).price }

/-- The fallback pass of `findDemoOpportunities`: when the first pass
found nothing (and `FORCE_TRADE` is on), pick the first market with
enough price history and push one forced opportunity in a random
direction. -/
def fallbackOpps (state : RMMState) (coin : String → Bool)
    (markets : List MarketEntry) : List Opportunity :=
  match markets.find? (fun m =>
      match jsGet state.priceHistory m.denom with
      | some ph => decide (PRICE_HISTORY_LENGTH ≤ ph.length)
      | none => false) with
  | some m =>
    [{ denom := m.denom, long := coin m.denom, priceChange := 0,
       strength := 1/10, forcedTrade := true,
       latestPrice := (((jsGet state.priceHistory m.denom).getD []).getLastD
         { timestamp := 0, price := 0 }).price }]
  | none => []

/-- The final `sort((a, b) => b.strength - a.strength)`: descending
strength. -/
def sortByStrength (opps : List Opportunity) : List Opportunity :=
  opps.mergeSort fun a b => decide (b.strength ≤ a.strength)

/-- rmm-strategy `findDemoOpportunities(state, enabledMarkets,
fundingRates)`: the rotation check, the first pass over the markets, the
forced fallback when nothing was found, the emergency blacklist-clearing
recursive retry, and the final sort by strength.  `coin` models the
`Math.random() > 0.5` draws, `now` models `Date.now()`.  Returns the
sorted opportunities together with the (possibly mutated and saved)
state. -/
def findDemoOpportunities (state : RMMState) (markets : List MarketEntry)
    (fundingRates : List (String × FundingEntry)) (coin : String → Bool)
    (now : Nat) : List Opportunity × RMMState :=
  let state1 := rotateIfDue state now
  let fp := markets.filterMap (firstPassOpp state1 fundingRates coin)
  let opps := if fp.isEmpty && FORCE_TRADE then fp ++ fallbackOpps state1 coin markets
    else fp
  if h : opps.isEmpty && FORCE_TRADE && !state1.assetBlacklist.isEmpty then
    findDemoOpportunities { state1 with assetBlacklist := [] } markets fundingRates
      coin now
  else
    (sortByStrength opps, state1)
termination_by state.assetBlacklist.length
decreasing_by
  have hle : (rotateIfDue state now).assetBlacklist.length ≤ state.assetBlacklist.length := by
    unfold rotateIfDue
    split <;> simp
  simp only [Bool.and_eq_true, Bool.not_eq_true'] at h
  have h1 : (rotateIfDue state now).assetBlacklist.isEmpty = false := h.2
  have h2 : 0 < (rotateIfDue state now).assetBlacklist.length := by
    cases hb : (rotateIfDue state now).assetBlacklist with
    | nil => rw [hb] at h1; simp at h1
    | cons a l => simp [hb]
  simpa using Nat.lt_of_lt_of_le h2 hle

/-- The close path of rmm `managePositions`: each closed position's asset
denoms are pushed onto the blacklist unless already present. -/
def addAssetsToBlacklist (blacklist : List String) (assets : List RMMAsset) :
    List String :=
  assets.foldl
    (fun bl a => if bl.contains a.denom then bl else bl ++ [a.denom]) blacklist

/-- Steps 3-5 of rmm `managePositions`, after the exit checks: count the
tracked positions, return the state unchanged at the cap, otherwise take
the top `MAX_POSITIONS - count` opportunities and store a new position
record under each iteration's extracted position id.  `results i` is the
position id extracted from iteration `i`'s transaction events (`none`:
extraction failed or the iteration's body threw), `mkPos i` the record
stored for it. -/
def openingPhase (positions : List (String × RMMPositionState))
    (opps : List Opportunity) (results : Nat → Option String)
    (mkPos : Nat → RMMPositionState) : List (String × RMMPositionState) :=
  let currentPositionCount := positions.length
  if MAX_POSITIONS ≤ currentPositionCount then positions
  else
    ((opps.take (MAX_POSITIONS - currentPositionCount)).enum).foldl
      (fun ps p =>
        match results p.1 with
        | some pid => jsSet ps pid (mkPos p.1)
        | none => ps)
      positions

end BullBear.RMM

namespace BullBear.YH

/-- A market record as the yield-harvester reads it: `denom`, the 24 h
price-change percentage (`day_change`, absent modelled as `none`) and the
market's liquidity (`total_open_interest`). -/
structure YHMarket where
  denom : String
  day_change : Option ℚ
  total_open_interest : Option ℚ
  deriving DecidableEq

/-- A funding-rates entry as the yield-harvester consumes it; `longOI`
and `shortOI` are the numeric values (`parseFloat`) of the OI strings. -/
structure YHFunding where
  fundingRate : ℚ
  longOI : ℚ
  shortOI : ℚ
  deriving DecidableEq

/-- The per-position record yield-harvester keeps in `state.positions`. -/
structure YHPosition where
  id : String
  denom : String
  isLong : Bool
  entryFundingRate : ℚ
  entryTimestamp : Nat
  leverage : String
  collateral : ℚ
  strategy : String
  deriving DecidableEq

/-- The persisted yield-harvester state
(`yield-harvester-state.json`): positions by id, and the blacklist as a
denom → expiration-timestamp map. -/
structure YHState where
  positions : List (String × YHPosition)
  assetBlacklist : List (String × Nat)
  lastRun : Option Nat
  deriving DecidableEq

/-- yield-harvester `CONFIG.MAX_POSITIONS`. -/
def MAX_POSITIONS : Nat := 3

/-- yield-harvester `CONFIG.COLLATERAL` (10.1). -/
def COLLATERAL : ℚ := 101/10

/-- yield-harvester `CONFIG.MIN_FUNDING_ENTRY`. -/
def MIN_FUNDING_ENTRY : ℚ := 15

/-- yield-harvester `CONFIG.MIN_OI_IMBALANCE` (1.3). -/
def MIN_OI_IMBALANCE : ℚ := 13/10

/-- yield-harvester `CONFIG.VOLATILITY_THRESHOLD`. -/
def VOLATILITY_THRESHOLD : ℚ := 5

/-- yield-harvester `CONFIG.PRIORITIZE_HIGH_LIQUIDITY`. -/
def PRIORITIZE_HIGH_LIQUIDITY : Bool := true

/-- yield-harvester `CONFIG.LEVERAGE_NORMAL`. -/
def LEVERAGE_NORMAL : String := "2"

/-- yield-harvester `CONFIG.LEVERAGE_HIGH_VOL`. -/
def LEVERAGE_HIGH_VOL : String := "1.5"

/-- yield-harvester `getLeverageForAsset(denom, markets)`: reduced
leverage when the asset's absolute 24 h change exceeds the volatility
threshold. -/
def getLeverageForAsset (denom : String) (markets : List YHMarket) : String :=
  match markets.find? fun m => m.denom == denom with
  | none => LEVERAGE_NORMAL
  | some market =>
    if |market.day_change.getD 0| > VOLATILITY_THRESHOLD then LEVERAGE_HIGH_VOL
    else LEVERAGE_NORMAL

/-- The blacklist skip guard of `findFundingOpportunities`:
`state.assetBlacklist[denom] && state.assetBlacklist[denom] > now` (a
stored expiration of `0` is falsy). -/
def blacklistActive (state : YHState) (now : Nat) (denom : String) : Bool :=
  match BullBear.jsGet state.assetBlacklist denom with
  | some expiry => decide (expiry ≠ 0) && decide (now < expiry)
  | none => false

/-- The already-trading skip guard: some tracked position has this
denom. -/
def alreadyTrading (state : YHState) (denom : String) : Bool :=
  state.positions.any fun p => p.2.denom == denom

/-- An opportunity pushed by `findFundingOpportunities`; `oiDirection`
is `some true` for "long", `some false` for "short", `none` for the
`null` initial value. -/
structure YHOpportunity where
  denom : String
  fundingRate : ℚ
  isLong : Bool
  oiImbalance : ℚ
  oiDirection : Option Bool
  longOI : ℚ
  shortOI : ℚ
  score : ℚ
  leverage : String
  deriving DecidableEq

/-- One iteration of the `findFundingOpportunities` market loop.
`log10q` models `Math.log10` (a real-valued logarithm; none of the
proved claims depends on its values). -/
def oppForMarket (fundingRates : List (String × YHFunding)) (state : YHState)
    (now : Nat) (markets : List YHMarket) (log10q : ℚ → ℚ)
    (market : YHMarket) : Option YHOpportunity :=
  let denom := market.denom
  if blacklistActive state now denom then none
  else
    match BullBear.jsGet fundingRates denom with
    | none => none
    | some fd =>
      if alreadyTrading state denom then none
      else
        let fundingRate := fd.fundingRate
        if |fundingRate| < MIN_FUNDING_ENTRY then none
        else
          let longOI := fd.longOI
          let shortOI := fd.shortOI
          let oi : ℚ × Option Bool :=
            if 0 < longOI ∧ 0 < shortOI then
              if shortOI < longOI then (longOI / shortOI, some true)
              else (shortOI / longOI, some false)
            else (1, none)
          if oi.1 < MIN_OI_IMBALANCE then none
          else
            let isLong := decide (fundingRate < 0)
            let score0 := |fundingRate| * oi.1
            let score1 := if (isLong && (oi.2 == some false)) ||
                (!isLong && (oi.2 == some true)) then score0 * (12/10) else score0
            let liquidity := market.total_open_interest.getD 0
            let score := if PRIORITIZE_HIGH_LIQUIDITY && decide (0 < liquidity) then
                score1 * (1 + log10q (max liquidity 1) / 10)
              else score1
            some { denom := denom, fundingRate := fundingRate, isLong := isLong,
                   oiImbalance := oi.1, oiDirection := oi.2, longOI := longOI,
                   shortOI := shortOI, score := score,
                   leverage := getLeverageForAsset denom markets }

/-- yield-harvester `findFundingOpportunities(enabledMarkets,
fundingRates, state)`: the market loop followed by the sort by
descending score. -/
def findFundingOpportunities (markets : List YHMarket)
    (fundingRates : List (String × YHFunding)) (state : YHState) (now : Nat)
    (log10q : ℚ → ℚ) : List YHOpportunity :=
  (markets.filterMap (oppForMarket fundingRates state now markets log10q)).mergeSort
    fun a b => decide (b.score ≤ a.score)

/-- The close path of yield-harvester `managePositions`: after closing a
position, its denom is blacklisted until `now + 6 * 60 * 60 * 1000`
(6 hours). -/
def blacklistAfterClose (state : YHState) (denom : String) (now : Nat) : YHState :=
  { state with
    assetBlacklist := BullBear.jsSet state.assetBlacklist denom
      (now + 6 * 60 * 60 * 1000) }

/-- The record yield-harvester stores for a newly opened position,
tagged with `strategy: 'yield-harvester'`. -/
def mkPosition (pid : String) (opp : YHOpportunity) (now : Nat) : YHPosition :=
  { id := pid, denom := opp.denom, isLong := opp.isLong,
    entryFundingRate := opp.fundingRate, entryTimestamp := now,
    leverage := opp.leverage, collateral := COLLATERAL,
    strategy := "yield-harvester" }

/-- The tracked-position count of yield-harvester `managePositions`:
only positions tagged with this strategy are counted. -/
def trackedCount (positions : List (String × YHPosition)) : Nat :=
  (positions.filter fun p => p.2.strategy == "yield-harvester").length

/-- Steps 3-5 of yield-harvester `managePositions`: return unchanged at
the cap, otherwise take the top `MAX_POSITIONS - count` opportunities
and store a tagged record under each iteration's extracted position id
(`results i = none`: the id could not be extracted or the body threw). -/
def openingPhase (positions : List (String × YHPosition))
    (opps : List YHOpportunity) (results : Nat → Option String) (now : Nat) :
    List (String × YHPosition) :=
  let currentPositionCount := trackedCount positions
  if MAX_POSITIONS ≤ currentPositionCount then positions
  else
    ((opps.take (MAX_POSITIONS - currentPositionCount)).enum).foldl
      (fun ps p =>
        match results p.1 with
        | some pid => BullBear.jsSet ps pid (mkPosition pid p.2 now)
        | none => ps)
      positions

end BullBear.YH

namespace BullBear

/-- The concrete three-position RMM state used by the C10 witness. -/
def rposW : List (String × RMM.RMMPositionState) :=
  [("101", { createdAt := 0, assets := [], entryPrices := [] }),
   ("102", { createdAt := 0, assets := [], entryPrices := [] }),
   ("103", { createdAt := 0, assets := [], entryPrices := [] })]

/-- The concrete market, funding data and state used by the C6 witness. -/
def yhMarketW : YH.YHMarket :=
  { denom := "perps/ueth", day_change := none, total_open_interest := none }

/-- The funding map for the C6 witness. -/
def yhFundW : List (String × YH.YHFunding) :=
  [("perps/ueth", { fundingRate := 20, longOI := 1000, shortOI := 100 })]

/-- The starting state for the C6 witness. -/
def yhStateW : YH.YHState :=
  { positions := [], assetBlacklist := [], lastRun := none }

/-- The RMM state for the C6 counterexample: no tracked positions, a
two-point rising price history for `perps/ubtc`, a rotation that just
happened, and `perps/ubtc` freshly pushed onto the blacklist by the
close path. -/
def stateC6 : RMM.RMMState :=
  { positions := [],
    priceHistory := [("perps/ubtc",
      [{ timestamp := 1000, price := 100 }, { timestamp := 2000, price := 200 }])],
    lastRotation := 5000000,
    assetBlacklist := RMM.addAssetsToBlacklist []
      [{ denom := "perps/ubtc", long := true, percent := 1/2 }] }

/-- What a read of the cache file can yield: unparsable text, or a parsed
object with a `lastUpdated` stamp (an absent or zero field both being
falsy, absence is modelled as `0`) and the cached `data`. -/
inductive CacheContent (δ : Type) where
  | corrupt
  | parsed (lastUpdated : Nat) (data : δ)
  deriving DecidableEq

/-- The object `tryCache` returns: `{ fromCache, expired?, error?, data }`
with absent boolean fields read as `false` and `data: null` as `none`. -/
structure TryCacheResult (δ : Type) where
  fromCache : Bool
  expired : Bool
  error : Bool
  data : Option δ
  deriving DecidableEq

/-- `lib.js` `tryCache(cachePath, cacheTime, fetchDataFn)`.  `file` is the
cache file's state (`none`: no file), `now` models `Date.now()`, `fetch`
the outcome `fetchDataFn()` would have.  Returns the result object, the
file's new state, and whether `fetchDataFn` was invoked.  File writes and
the cache-directory `mkdirSync` are modelled as succeeding; the freshness
test compares over the integers as JavaScript's `now - lastUpdated <
cacheTime` does. -/
def tryCache {δ : Type} (file : Option (CacheContent δ)) (now : Nat)
    (cacheTime : Nat) (fetch : JS δ) :
    TryCacheResult δ × Option (CacheContent δ) × Bool :=
  match file with
  | some (.parsed lu d) =>
    if lu ≠ 0 ∧ (now : Int) - lu < cacheTime then
      ({ fromCache := true, expired := false, error := false, data := some d },
        file, false)
    else
      match fetch with
      | .ok fresh =>
        ({ fromCache := false, expired := false, error := false, data := some fresh },
          some (.parsed now fresh), true)
      | .error _ =>
        ({ fromCache := true, expired := true, error := false, data := some d },
          file, true)
  | some .corrupt =>
    ({ fromCache := false, expired := false, error := true, data := none },
      file, false)
  | none =>
    match fetch with
    | .ok fresh =>
      ({ fromCache := false, expired := false, error := false, data := some fresh },
        some (.parsed now fresh), true)
    | .error _ =>
      ({ fromCache := false, expired := false, error := true, data := none },
        file, true)

end BullBear

namespace BullBear.Json

/-- The double-quote character (code 34). -/
def quoteChar : Char := Char.ofNat 34

/-- The backslash character (code 92). -/
def backslashChar : Char := Char.ofNat 92

/-- The opening-brace character (code 123). -/
def lbraceChar : Char := Char.ofNat 123

/-- The closing-brace character (code 125). -/
def rbraceChar : Char := Char.ofNat 125

/-- The newline character (code 10). -/
def nlChar : Char := Char.ofNat 10

/-- JSON whitespace: space, tab, line feed, carriage return. -/
def isWs (c : Char) : Bool :=
  c = ' ' || c = nlChar || c = Char.ofNat 9 || c = Char.ofNat 13

/-- Drop leading JSON whitespace. -/
def skipWs : List Char → List Char
  | [] => []
  | c :: cs => if isWs c then skipWs cs else c :: cs

/-- A run of `n` spaces (the indentation `JSON.stringify(·, null, 2)`
emits). -/
def spaces (n : Nat) : List Char := List.replicate n ' '

/-- Decimal digit test. -/
def isDigit (c : Char) : Bool := 48 ≤ c.toNat && c.toNat ≤ 57

/-- The decimal digit character for `n < 10`. -/
def digitChar (n : Nat) : Char := Char.ofNat (48 + n)

/-- Decimal numeral of a natural number, most significant digit first. -/
def natToChars (n : Nat) : List Char :=
  if n < 10 then [digitChar n]
  else natToChars (n / 10) ++ [digitChar (n % 10)]
termination_by n
decreasing_by exact Nat.div_lt_self (by omega) (by omega)

/-- Numeric value of a decimal digit string. -/
def charsToNat (cs : List Char) : Nat :=
  cs.foldl (fun a c => a * 10 + (c.toNat - 48)) 0

/-- How JavaScript prints an integer: optional minus sign, then the
decimal numeral. -/
def intToChars (n : Int) : List Char :=
  if n < 0 then Char.ofNat 45 :: natToChars n.natAbs else natToChars n.toNat

/-- Lower-case hexadecimal digit character for `n < 16`. -/
def hexDigit (n : Nat) : Char :=
  if n < 10 then Char.ofNat (48 + n) else Char.ofNat (87 + n)

/-- Value of a hexadecimal digit character (JSON.parse accepts both
cases). -/
def parseHexDigit (c : Char) : Option Nat :=
  if 48 ≤ c.toNat ∧ c.toNat ≤ 57 then some (c.toNat - 48)
  else if 97 ≤ c.toNat ∧ c.toNat ≤ 102 then some (c.toNat - 87)
  else if 65 ≤ c.toNat ∧ c.toNat ≤ 70 then some (c.toNat - 55)
  else none

/-- A JSON document as the state files hold it.  Numbers are restricted
to integers: the state objects' numeric fields are `Date.now()`
timestamps, and floating-point printing is outside this embedding.
Strings are lists of characters so escaping can be modelled. -/
inductive JValue where
  | jnull
  | jbool (b : Bool)
  | jnum (n : Int)
  | jstr (s : List Char)
  | jarr (elements : List JValue)
  | jobj (fields : List (List Char × JValue))

/-- `JSON.stringify`'s escaping of one string character: quote and
backslash are backslash-escaped, the five named control escapes are used
where they exist, any other control character becomes a `u00` +
two-hex-digit escape, and everything else is copied. -/
def escChar (c : Char) : List Char :=
  if c = quoteChar then [backslashChar, quoteChar]
  else if c = backslashChar then [backslashChar, backslashChar]
  else if c = Char.ofNat 8 then [backslashChar, 'b']
  else if c = Char.ofNat 9 then [backslashChar, 't']
  else if c = nlChar then [backslashChar, 'n']
  else if c = Char.ofNat 12 then [backslashChar, 'f']
  else if c = Char.ofNat 13 then [backslashChar, 'r']
  else if c.toNat < 32 then
    [backslashChar, 'u', '0', '0', hexDigit (c.toNat / 16), hexDigit (c.toNat % 16)]
  else [c]

/-- `JSON.stringify`'s escaping of a string's characters. -/
def escapeChars (s : List Char) : List Char := s.flatMap escChar

mutual

/-- `JSON.stringify(v, null, 2)` at indentation level `ind`: the exact
text layout V8 produces — items of non-empty arrays and objects go one
per line at `ind + 2` spaces, the closer on its own line at `ind`
spaces. -/
def stringifyVal (ind : Nat) : JValue → List Char
  | .jnull => ['n', 'u', 'l', 'l']
  | .jbool true => ['t', 'r', 'u', 'e']
  | .jbool false => ['f', 'a', 'l', 's', 'e']
  | .jnum n => intToChars n
  | .jstr s => quoteChar :: (escapeChars s ++ [quoteChar])
  | .jarr [] => ['[', ']']
  | .jarr (x :: xs) =>
    '[' :: nlChar :: (stringifyItems (ind + 2) x xs ++
      nlChar :: (spaces ind ++ [']']))
  | .jobj [] => [lbraceChar, rbraceChar]
  | .jobj (f :: fs) =>
    lbraceChar :: nlChar :: (stringifyFields (ind + 2) f fs ++
      nlChar :: (spaces ind ++ [rbraceChar]))
termination_by v => sizeOf v

/-- The comma-newline separated, indented items of a non-empty array. -/
def stringifyItems (ind : Nat) (x : JValue) (xs : List JValue) : List Char :=
  spaces ind ++ (stringifyVal ind x ++
    match xs with
    | [] => []
    | y :: ys => ',' :: nlChar :: stringifyItems ind y ys)
termination_by 1 + sizeOf x + sizeOf xs

/-- The comma-newline separated, indented `"key": value` fields of a
non-empty object. -/
def stringifyFields (ind : Nat) : List Char × JValue →
    List (List Char × JValue) → List Char
  | (key, v), fs =>
    spaces ind ++ (quoteChar :: (escapeChars key ++
      quoteChar :: ':' :: ' ' :: (stringifyVal ind v ++
        match fs with
        | [] => []
        | g :: gs => ',' :: nlChar :: stringifyFields ind g gs)))
termination_by f fs => 1 + sizeOf f + sizeOf fs

end

/-- The body of a JSON string after the opening quote: plain characters
up to the closing quote, with backslash escapes (including `uXXXX`)
decoded.  Returns the decoded content and the text after the closing
quote. -/
def parseStringBody : List Char → Option (List Char × List Char)
  | [] => none
  | c :: cs =>
    if c = quoteChar then some ([], cs)
    else if c = backslashChar then
      match cs with
      | [] => none
      | e :: cs2 =>
        if e = quoteChar then
          (parseStringBody cs2).map fun p => (quoteChar :: p.1, p.2)
        else if e = backslashChar then
          (parseStringBody cs2).map fun p => (backslashChar :: p.1, p.2)
        else if e = '/' then
          (parseStringBody cs2).map fun p => ('/' :: p.1, p.2)
        else if e = 'b' then
          (parseStringBody cs2).map fun p => (Char.ofNat 8 :: p.1, p.2)
        else if e = 't' then
          (parseStringBody cs2).map fun p => (Char.ofNat 9 :: p.1, p.2)
        else if e = 'n' then
          (parseStringBody cs2).map fun p => (nlChar :: p.1, p.2)
        else if e = 'f' then
          (parseStringBody cs2).map fun p => (Char.ofNat 12 :: p.1, p.2)
        else if e = 'r' then
          (parseStringBody cs2).map fun p => (Char.ofNat 13 :: p.1, p.2)
        else if e = 'u' then
          match cs2 with
          | h1 :: h2 :: h3 :: h4 :: cs3 =>
            match parseHexDigit h1, parseHexDigit h2,
                parseHexDigit h3, parseHexDigit h4 with
            | some a, some b, some c3, some d =>
              (parseStringBody cs3).map fun p =>
                (Char.ofNat (((a * 16 + b) * 16 + c3) * 16 + d) :: p.1, p.2)
            | _, _, _, _ => none
          | _ => none
        else none
    else (parseStringBody cs).map fun p => (c :: p.1, p.2)

mutual

/-- A recursive-descent `JSON.parse` for the fragment `JSON.stringify`
emits (numbers restricted to integers), tolerant of whitespace; `fuel`
bounds the recursion depth and any fuel of at least the input length
suffices. -/
def parseVal : Nat → List Char → Option (JValue × List Char)
  | 0, _ => none
  | f + 1, cs =>
    match skipWs cs with
    | [] => none
    | c :: rest =>
      if c = 'n' then
        match rest with
        | 'u' :: 'l' :: 'l' :: r => some (.jnull, r)
        | _ => none
      else if c = 't' then
        match rest with
        | 'r' :: 'u' :: 'e' :: r => some (.jbool true, r)
        | _ => none
      else if c = 'f' then
        match rest with
        | 'a' :: 'l' :: 's' :: 'e' :: r => some (.jbool false, r)
        | _ => none
      else if c = quoteChar then
        (parseStringBody rest).map fun p => (.jstr p.1, p.2)
      else if c = '[' then
        match skipWs rest with
        | [] => none
        | c2 :: r2 =>
          if c2 = ']' then some (.jarr [], r2)
          else (parseItems f (c2 :: r2)).map fun p => (.jarr p.1, p.2)
      else if c = lbraceChar then
        match skipWs rest with
        | [] => none
        | c2 :: r2 =>
          if c2 = rbraceChar then some (.jobj [], r2)
          else (parseFields f (c2 :: r2)).map fun p => (.jobj p.1, p.2)
      else if c = Char.ofNat 45 then
        match rest.takeWhile isDigit with
        | [] => none
        | d :: ds =>
          some (.jnum (-(charsToNat (d :: ds) : Int)), rest.dropWhile isDigit)
      else if isDigit c then
        some (.jnum (charsToNat ((c :: rest).takeWhile isDigit) : Int),
          (c :: rest).dropWhile isDigit)
      else none
termination_by f _ => (f, 0)

/-- The elements of a non-empty array body, each followed by a comma or
the closing bracket. -/
def parseItems : Nat → List Char → Option (List JValue × List Char)
  | 0, _ => none
  | f + 1, cs =>
    match parseVal (f + 1) cs with
    | none => none
    | some (v, rest) =>
      match skipWs rest with
      | [] => none
      | c :: r2 =>
        if c = ',' then (parseItems f r2).map fun p => (v :: p.1, p.2)
        else if c = ']' then some ([v], r2)
        else none
termination_by f _ => (f, 1)

/-- The fields of a non-empty object body: `"key": value`, each followed
by a comma or the closing brace. -/
def parseFields : Nat → List Char →
    Option (List (List Char × JValue) × List Char)
  | 0, _ => none
  | f + 1, cs =>
    match skipWs cs with
    | [] => none
    | c :: rest =>
      if c = quoteChar then
        match parseStringBody rest with
        | none => none
        | some (key, r2) =>
          match skipWs r2 with
          | [] => none
          | c2 :: r3 =>
            if c2 = ':' then
              match parseVal (f + 1) r3 with
              | none => none
              | some (v, r4) =>
                match skipWs r4 with
                | [] => none
                | c3 :: r5 =>
                  if c3 = ',' then
                    (parseFields f r5).map fun p => ((key, v) :: p.1, p.2)
                  else if c3 = rbraceChar then some ([(key, v)], r5)
                  else none
            else none
      else none
termination_by f _ => (f, 1)

end

/-- `JSON.parse` of a whole document: one value, nothing but whitespace
after it. -/
def parseTop (cs : List Char) : Option JValue :=
  match parseVal (cs.length + 1) cs with
  | some (v, rest) => if skipWs rest = [] then some v else none
  | none => none

/-- The fresh default state rmm-strategy's `loadState` falls back to. -/
def rmmDefaultState : JValue :=
  .jobj [("positions".toList, .jobj []),
         ("priceHistory".toList, .jobj []),
         ("lastRotation".toList, .jnum 0),
         ("assetBlacklist".toList, .jarr []),
         ("lastRun".toList, .jnull)]

/-- rmm-strategy `saveState(state)`: writes `JSON.stringify(state, null,
2)` to the state file, replacing its content (a write error is caught
and logged in the source and not modelled).  Returns the file's new
content. -/
def saveState (state : JValue) : Option (List Char) :=
  some (stringifyVal 0 state)

/-- rmm-strategy `loadState()`: reads and `JSON.parse`s the state file
when it exists, returning the parsed state; when the file is missing or
reading/parsing throws, the fresh default state is returned. -/
def loadState (file : Option (List Char)) : JValue :=
  match file with
  | some cs => (parseTop cs).getD rmmDefaultState
  | none => rmmDefaultState

/-- The head of a character list fails `p` (vacuously for `[]`). -/
def headNot (p : Char → Bool) : List Char → Prop
  | [] => True
  | c :: _ => p c = false

/-- What follows an array item in the printed text: the comma, newline
and next indented item, or — after the last item — the newline, closing
indentation (`j` is the enclosing value's indentation) and bracket, then
the text `rest` after the array. -/
def itemsSuffix (ind : Nat) (xs : List JValue) (j : Nat) (rest : List Char) :
    List Char :=
  match xs with
  | [] => nlChar :: (spaces j ++ (']' :: rest))
  | y :: ys => ',' :: nlChar :: (spaces ind ++
      (stringifyVal ind y ++ itemsSuffix ind ys j rest))

/-- What follows an object field in the printed text. -/
def fieldsSuffix (ind : Nat) (fs : List (List Char × JValue)) (j : Nat)
    (rest : List Char) : List Char :=
  match fs with
  | [] => nlChar :: (spaces j ++ (rbraceChar :: rest))
  | g :: gs => ',' :: nlChar :: (spaces ind ++
      (quoteChar :: (escapeChars g.1 ++
        quoteChar :: ':' :: ' ' :: (stringifyVal ind g.2 ++
          fieldsSuffix ind gs j rest))))

/-- The joint round-trip statement at one fuel value: parsing the
printed form of a value (or of the items/fields of a non-empty
array/object together with their closer) succeeds and consumes exactly
the printed text. -/
def RoundTrip (fuel : Nat) : Prop :=
  (∀ (ind : Nat) (v : JValue) (rest : List Char),
    (stringifyVal ind v ++ rest).length ≤ fuel → headNot isDigit rest →
    parseVal fuel (stringifyVal ind v ++ rest) = some (v, rest)) ∧
  (∀ (ind : Nat) (x : JValue) (xs : List JValue) (j : Nat) (rest : List Char),
    (stringifyVal ind x ++ itemsSuffix ind xs j rest).length ≤ fuel →
    parseItems fuel (stringifyVal ind x ++ itemsSuffix ind xs j rest) =
      some (x :: xs, rest)) ∧
  (∀ (ind : Nat) (key : List Char) (v : JValue)
      (fs : List (List Char × JValue)) (j : Nat) (rest : List Char),
    (quoteChar :: (escapeChars key ++ quoteChar :: ':' :: ' ' ::
      (stringifyVal ind v ++ fieldsSuffix ind fs j rest))).length ≤ fuel →
    parseFields fuel (quoteChar :: (escapeChars key ++ quoteChar :: ':' :: ' ' ::
      (stringifyVal ind v ++ fieldsSuffix ind fs j rest))) =
      some ((key, v) :: fs, rest))

end BullBear.Json

namespace BullBear

/-- Every pair of `jsSet m k v` is a pair of `m` or the new pair `(k, v)`. -/
theorem mem_jsSet {β : Type} {m : List (String × β)} {k : String} {v : β}
    {p : String × β} (hp : p ∈ jsSet m k v) : p ∈ m ∨ p = (k, v) := by
  unfold jsSet at hp
  split at hp
  · obtain ⟨q, hq, hqe⟩ := List.mem_map.mp hp
    by_cases hk : q.1 == k
    · simp only [hk, if_true] at hqe
      exact Or.inr hqe.symm
    · simp only [hk, if_false] at hqe
      exact Or.inl (hqe ▸ hq)
  · simpa using hp

/-- Every pair accumulated by the `fetchFundingRates` fold comes from the
initial accumulator or from one of the rate records. -/
theorem mem_foldl_jsSet (l : List RawRate) (acc : List (String × FundingEntry))
    {p : String × FundingEntry}
    (hp : p ∈ l.foldl (fun acc r => jsSet acc r.denom (rateEntry r)) acc) :
    p ∈ acc ∨ ∃ r ∈ l, p = (r.denom, rateEntry r) := by
  induction l generalizing acc with
  | nil => exact Or.inl hp
  | cons r rest ih =>
    rcases ih (jsSet acc r.denom (rateEntry r)) hp with h | ⟨r', hr', he⟩
    · rcases mem_jsSet h with h' | h'
      · exact Or.inl h'
      · exact Or.inr ⟨r, List.mem_cons_self .., h' ▸ rfl⟩
    · exact Or.inr ⟨r', List.mem_cons_of_mem _ hr', he⟩

/-- `openRMMPosition` emits exactly one contract execution and never
sleeps: its catch can only fire on a thrown error, and `lib.js`
`openPosition` never throws. -/
theorem openRMMPosition_trace {τ : Type} (exec : Nat → JS τ) (attempt : Nat) :
    (openRMMPosition exec attempt).2 = [Ev.execOpen] := by
  rw [openRMMPosition]
  cases h : exec attempt <;> simp [openPosition, Except.tryCatch, pure, Except.pure, bind, Except.bind]

/-- `openYieldPosition` emits exactly one contract execution and never
sleeps. -/
theorem openYieldPosition_trace {τ : Type} (exec : Nat → JS τ) (attempt : Nat) :
    (openYieldPosition exec attempt).2 = [Ev.execOpen] := by
  rw [openYieldPosition]
  cases h : exec attempt <;> simp [openPosition, Except.tryCatch, pure, Except.pure, bind, Except.bind]

/-- `openFRAPosition` emits exactly one contract execution and never
sleeps. -/
theorem openFRAPosition_trace {τ : Type} (exec : Nat → JS τ) (attempt : Nat) :
    (openFRAPosition exec attempt).2 = [Ev.execOpen] := by
  rw [openFRAPosition]
  cases h : exec attempt
  case ok r => simp [openPosition, Except.tryCatch, pure, Except.pure, bind, Except.bind]
  case error e => simp [openPosition, Except.tryCatch, pure, Except.pure, bind, Except.bind]

/-- The tail of the FRA opening loop (index ≥ 1): every iteration is
sleep, client refresh, execution. -/
theorem fraOpeningLoop_tail {τ : Type} (execs : List (Nat → JS τ)) (i : Nat) :
    fraOpeningLoop (i + 1) execs =
      execs.flatMap fun _ => [Ev.sleep 20000, Ev.refreshClient, Ev.execOpen] := by
  induction execs generalizing i with
  | nil => rfl
  | cons exec rest ih =>
    simp [fraOpeningLoop, openFRAPosition_trace, ih]

/-- C1: `openPosition` and `closePosition` return the transaction result
when the contract execution succeeds, and log the error and return `null`
when it throws; both always return normally (the outer `Except` is always
`.ok`), so no exception propagates to the caller. -/
theorem open_close_position_result_or_null {τ : Type} (eo ec : JS τ) :
    openPosition eo = .ok (match eo with
      | .ok r => (some r, ["Position Opened"])
      | .error e => (none, ["Error opening position: " ++ e])) ∧
    closePosition ec = .ok (match ec with
      | .ok r => (some r, ["Position Closed"])
      | .error e => (none, ["Error closing position: " ++ e])) := by
  constructor
  · cases eo <;> rfl
  · cases ec <;> rfl

/-- C3: `getPositions` returns the queried array on success and logs the
error and returns `[]` when the query throws; `getBalance` returns the
converted amount on success and logs the error and returns `0` when the
query throws; both always return normally, so no exception propagates. -/
theorem getPositions_getBalance_defaults {π : Type} (qp : JS (List π))
    (qb : JS BalanceReply) :
    getPositions qp = .ok (match qp with
      | .ok ps => (ps, [])
      | .error e => ([], ["Error getting positions: " ++ e])) ∧
    getBalance qb = .ok (match qb with
      | .ok b => (amountValue b.amount, [])
      | .error e => (0, ["Error getting balance: " ++ e])) := by
  constructor
  · cases qp <;> rfl
  · cases qb <;> rfl

/-- C4: every element of the fetched market list comes from an enabled
market and carries exactly its `denom` and `display`; there are exactly as
many elements as enabled markets; and every enabled market's entry is in
the list (so disabled markets contribute nothing). -/
theorem fetchMarkets_enabled_exactly (ms : List RawMarket) :
    (∀ e ∈ fetchMarkets ms, ∃ m ∈ ms, m.enabled = true ∧
      e.denom = m.denom ∧ e.display = m.display) ∧
    (fetchMarkets ms).length = (ms.filter fun m => m.enabled).length ∧
    (∀ m ∈ ms, m.enabled = true →
      ({ denom := m.denom, display := m.display } : MarketEntry) ∈ fetchMarkets ms) := by
  refine ⟨?_, ?_, ?_⟩
  · intro e he
    unfold fetchMarkets at he
    obtain ⟨m, hm, hme⟩ := List.mem_map.mp he
    refine ⟨m, List.mem_of_mem_filter hm, ?_, ?_, ?_⟩
    · simpa using List.of_mem_filter hm
    · exact (congrArg MarketEntry.denom hme).symm
    · exact (congrArg MarketEntry.display hme).symm
  · unfold fetchMarkets
    exact List.length_map _ _
  · intro m hm hme
    unfold fetchMarkets
    exact List.mem_map_of_mem _ (List.mem_filter.mpr ⟨hm, by simpa using hme⟩)

/-- Witness for C4 on a concrete market list with one enabled and one
disabled market. -/
theorem fetchMarkets_enabled_exactly_witness :
    (∃ m ∈ marketListW, m.enabled = true ∧
      ({ denom := "perps/ubtc", display := "BTC" } : MarketEntry).denom = m.denom ∧
      ({ denom := "perps/ubtc", display := "BTC" } : MarketEntry).display = m.display) ∧
    ({ denom := "perps/ubtc", display := "BTC" } : MarketEntry) ∈ fetchMarkets marketListW := by
  refine ⟨?_, ?_⟩
  · exact (fetchMarkets_enabled_exactly marketListW).1
      { denom := "perps/ubtc", display := "BTC" } (by decide)
  · exact (fetchMarkets_enabled_exactly marketListW).2.2
      { denom := "perps/ubtc", display := "BTC", enabled := true } (by decide) (by decide)

/-- C5: every denom/value pair of the mapping `getFundingRates` builds
comes from a contract rate record with that denom, whose
`current_funding_rate` (0 when absent) times 365 times 100 is the
`fundingRate`, and whose `long_oi_value` and `short_oi_value` are copied
unchanged into `longOI` and `shortOI`. -/
theorem fetchFundingRates_entries (rates : List RawRate) (k : String)
    (v : FundingEntry) (hmem : (k, v) ∈ fetchFundingRates rates) :
    ∃ r ∈ rates, r.denom = k ∧
      v.fundingRate = r.current_funding_rate.getD 0 * 365 * 100 ∧
      v.longOI = r.long_oi_value ∧ v.shortOI = r.short_oi_value := by
  rcases mem_foldl_jsSet rates [] hmem with h | ⟨r, hr, he⟩
  · simp at h
  · have hk : r.denom = k := (congrArg Prod.fst he).symm
    have hv : v = rateEntry r := congrArg Prod.snd he
    exact ⟨r, hr, hk, by rw [hv]; rfl, by rw [hv]; rfl, by rw [hv]; rfl⟩

/-- Witness for C5 on a concrete rate list: the produced entry for
`perps/uakt` is the annualized percentage of the contract's rate. -/
theorem fetchFundingRates_entries_witness :
    ∃ r ∈ [rateW], r.denom = "perps/uakt" ∧
      (rateEntry rateW).fundingRate = r.current_funding_rate.getD 0 * 365 * 100 ∧
      (rateEntry rateW).longOI = r.long_oi_value ∧
      (rateEntry rateW).shortOI = r.short_oi_value :=
  fetchFundingRates_entries [rateW] "perps/uakt" (rateEntry rateW)
    (by simp [fetchFundingRates, jsSet, rateW])

/-- C2: evaluation at the failing input.  When the underlying contract
execution throws "account sequence mismatch" on every attempt, the
open/close wrappers perform exactly one execution, never sleep, never
refresh the client, and return `null` — `lib.js` `openPosition` /
`closePosition` catch the error first and return `null`, so the
sequence-mismatch retry branch of `openRMMPosition`, `openYieldPosition`
and `closeYieldPosition` is unreachable and no retry or 10-20 s delay ever
happens, contradicting the claim (and the repository's own docs and the
wrappers' own retry code). -/
theorem sequence_mismatch_never_retried :
    openRMMPosition (fun _ => (.error "account sequence mismatch" : JS Nat)) 0 =
      (.ok none, [Ev.execOpen]) ∧
    openYieldPosition (fun _ => (.error "account sequence mismatch" : JS Nat)) 0 =
      (.ok none, [Ev.execOpen]) ∧
    closeYieldPosition (fun _ => (.error "account sequence mismatch" : JS Nat)) 0 =
      (.ok none, [Ev.execClose]) := by
  refine ⟨?_, ?_, ?_⟩
  · rw [openRMMPosition]
    simp [openPosition, Except.tryCatch, pure, Except.pure, bind, Except.bind]
  · rw [openYieldPosition]
    simp [openPosition, Except.tryCatch, pure, Except.pure, bind, Except.bind]
  · rw [closeYieldPosition]
    simp [closePosition, Except.tryCatch, pure, Except.pure, bind, Except.bind]

/-- C7 counterexample: a single RMM strategy run that opens two positions
submits the two position-opening executions back to back — the trace of
the opening loop for two taken opportunities is two executions with no
sleep between them. -/
theorem rmm_two_opens_no_delay :
    rmmOpeningLoopTrace [fun _ => (.ok 0 : JS Nat), fun _ => (.ok 0 : JS Nat)] =
      [Ev.execOpen, Ev.execOpen] := by
  simp [rmmOpeningLoopTrace, openRMMPosition_trace]

/-- C7 amended: only the funding-rate-arbitrage strategy separates
consecutive position openings with a fixed delay — its loop sleeps 20 s
(and refreshes the client) before every opening after the first — while
the RMM and yield-harvester opening loops emit nothing but the
back-to-back executions, whatever the execution outcomes are. -/
theorem opening_loop_delay_only_fra {τ : Type} (execs : List (Nat → JS τ)) :
    fraOpeningLoopTrace execs = (match execs with
      | [] => []
      | _ :: rest => Ev.execOpen ::
          rest.flatMap fun _ => [Ev.sleep 20000, Ev.refreshClient, Ev.execOpen]) ∧
    rmmOpeningLoopTrace execs = List.replicate execs.length Ev.execOpen ∧
    yhOpeningLoopTrace execs = List.replicate execs.length Ev.execOpen := by
  refine ⟨?_, ?_, ?_⟩
  · cases execs with
    | nil => rfl
    | cons exec rest =>
      simp [fraOpeningLoopTrace, fraOpeningLoop, openFRAPosition_trace,
        fraOpeningLoop_tail]
  · induction execs with
    | nil => rfl
    | cons exec rest ih =>
      simp [rmmOpeningLoopTrace, openRMMPosition_trace, List.replicate_succ] at ih ⊢
      exact ih
  · induction execs with
    | nil => rfl
    | cons exec rest ih =>
      simp [yhOpeningLoopTrace, openYieldPosition_trace, List.replicate_succ] at ih ⊢
      exact ih

/-- On a key-replacing `jsSet`, `find?` for that key hits the new pair. -/
theorem find?_map_replace {β : Type} (m : List (String × β)) (k : String) (v : β)
    (hany : (m.any fun p => p.1 == k) = true) :
    List.find? (fun p => p.1 == k)
      (m.map fun p => if p.1 == k then (k, v) else p) = some (k, v) := by
  induction m with
  | nil => simp at hany
  | cons p rest ih =>
    by_cases hp : p.1 == k
    · simp [List.find?, hp]
    · have hany2 : (rest.any fun q => q.1 == k) = true := by
        simpa [List.any_cons, hp] using hany
      simpa [List.find?, hp] using ih hany2

/-- Reading back the key just written: `m[k] = v` makes `m[k]` read `v`. -/
theorem jsGet_jsSet {β : Type} (m : List (String × β)) (k : String) (v : β) :
    jsGet (jsSet m k v) k = some v := by
  unfold jsGet jsSet
  split
  case isTrue hany =>
    rw [find?_map_replace m k v hany]
    rfl
  case isFalse hany =>
    rw [List.find?_append]
    have hanyf : (m.any fun p => p.1 == k) = false := Bool.eq_false_iff.mpr hany
    have hall := List.any_eq_false.mp hanyf
    have h1 : List.find? (fun p => p.1 == k) m = none :=
      List.find?_eq_none.mpr fun p hp => hall p hp
    rw [h1]
    simp [List.find?]

/-- `jsSet` grows an object by at most one property. -/
theorem length_jsSet_le {β : Type} (m : List (String × β)) (k : String) (v : β) :
    (jsSet m k v).length ≤ m.length + 1 := by
  unfold jsSet
  split
  · simp
  · simp

/-- `jsSet` keeps property keys duplicate-free. -/
theorem nodup_keys_jsSet {β : Type} {m : List (String × β)} (k : String) (v : β)
    (h : (m.map Prod.fst).Nodup) : ((jsSet m k v).map Prod.fst).Nodup := by
  unfold jsSet
  split
  case isTrue hany =>
    have hkeys : (m.map fun p => if p.1 == k then (k, v) else p).map Prod.fst =
        m.map Prod.fst := by
      rw [List.map_map]
      apply List.map_congr_left
      intro p hp
      by_cases hpk : p.1 == k
      · simp [Function.comp, hpk, (eq_of_beq hpk).symm]
      · simp [Function.comp, hpk]
    rw [hkeys]
    exact h
  case isFalse hany =>
    rw [List.map_append, List.nodup_append]
    refine ⟨h, by simp, ?_⟩
    intro a ha hb
    simp only [List.map_cons, List.map_nil, List.mem_singleton] at hb
    obtain ⟨p, hp, hpe⟩ := List.mem_map.mp ha
    have hanyf : (m.any fun p => p.1 == k) = false := Bool.eq_false_iff.mpr hany
    exact List.any_eq_false.mp hanyf p hp (by simp [hpe, hb])

end BullBear

namespace BullBear.YH

/-- A successful `oppForMarket` implies the market was not blacklisted,
and the opportunity carries the market's denom. -/
theorem oppForMarket_some {fundingRates : List (String × YHFunding)}
    {state : YHState} {now : Nat} {markets : List YHMarket}
    {log10q : ℚ → ℚ} {market : YHMarket} {opp : YHOpportunity}
    (h : oppForMarket fundingRates state now markets log10q market = some opp) :
    blacklistActive state now market.denom = false ∧ opp.denom = market.denom := by
  simp only [oppForMarket] at h
  split at h
  · exact absurd h (by simp)
  case isFalse hb =>
    refine ⟨Bool.eq_false_iff.mpr hb, ?_⟩
    repeat' split at h
    all_goals first
      | (injection h with h2; rw [← h2])
      | exact absurd h (by simp)

/-- `trackedCount` as a `countP`. -/
theorem trackedCount_eq_countP (ps : List (String × YHPosition)) :
    trackedCount ps = ps.countP fun p => p.2.strategy == "yield-harvester" := by
  simp [trackedCount, List.countP_eq_length_filter]

/-- With duplicate-free keys, a `jsSet` raises the tagged-position count
by at most one. -/
theorem trackedCount_jsSet_le (ps : List (String × YHPosition)) (pid : String)
    (v : YHPosition) (hnd : (ps.map Prod.fst).Nodup) :
    trackedCount (BullBear.jsSet ps pid v) ≤ trackedCount ps + 1 := by
  induction ps with
  | nil =>
    have hform : BullBear.jsSet ([] : List (String × YHPosition)) pid v = [(pid, v)] := rfl
    rw [hform, trackedCount, trackedCount]
    simpa using List.length_filter_le (fun p => p.2.strategy == "yield-harvester") [(pid, v)]
  | cons p rest ih =>
    simp only [List.map_cons, List.nodup_cons] at hnd
    obtain ⟨hpk, hndr⟩ := hnd
    simp only [trackedCount_eq_countP] at ih ⊢
    by_cases hp : (p.1 == pid) = true
    · have hkeq : p.1 = pid := eq_of_beq hp
      have hrest : ∀ q ∈ rest, (q.1 == pid) = false := by
        intro q hq
        cases hqk : (q.1 == pid) with
        | false => rfl
        | true =>
          exfalso
          apply hpk
          rw [hkeq, ← eq_of_beq hqk]
          exact List.mem_map_of_mem Prod.fst hq
      have hmap : (rest.map fun q => if q.1 == pid then (pid, v) else q) = rest := by
        have h1 : (rest.map fun q => if q.1 == pid then (pid, v) else q) =
            rest.map id := List.map_congr_left fun q hq => by simp [hrest q hq]
        rw [h1, List.map_id]
      have hany : ((p :: rest).any fun q => q.1 == pid) = true := by
        simp [List.any_cons, hp]
      simp only [BullBear.jsSet, hany, if_true, List.map_cons, hp, hmap]
      rw [List.countP_cons, List.countP_cons]
      split <;> split <;> omega
    · have hpf : (p.1 == pid) = false := Bool.eq_false_iff.mpr hp
      by_cases hr : (rest.any fun q => q.1 == pid) = true
      · have hany : ((p :: rest).any fun q => q.1 == pid) = true := by
          simp [List.any_cons, hr]
        have hrw : BullBear.jsSet rest pid v =
            rest.map fun q => if q.1 == pid then (pid, v) else q := by
          simp only [BullBear.jsSet, hr, if_true]
        have hfp : (if (p.1 == pid) = true then (pid, v) else p) = p :=
          if_neg (by simp [hpf])
        simp only [BullBear.jsSet, hany, if_true, List.map_cons, hfp]
        rw [List.countP_cons, List.countP_cons]
        have hih := ih hndr
        rw [hrw] at hih
        omega
      · have hrf : (rest.any fun q => q.1 == pid) = false := Bool.eq_false_iff.mpr hr
        have hany : ((p :: rest).any fun q => q.1 == pid) = false := by
          rw [List.any_cons, hpf, hrf]
          rfl
        simp only [BullBear.jsSet, hany, Bool.false_eq_true, if_false, List.countP_append]
        rw [List.countP_cons, List.countP_cons]
        simp only [List.countP_nil]
        split <;> split <;> omega

end BullBear.YH

namespace BullBear

/-- The rmm opening fold adds at most one tracked position per
iteration. -/
theorem rmm_fold_length_le (results : Nat → Option String)
    (mkPos : Nat → RMM.RMMPositionState) (l : List (Nat × RMM.Opportunity)) :
    ∀ positions : List (String × RMM.RMMPositionState),
      (l.foldl (fun ps p =>
        match results p.1 with
        | some pid => jsSet ps pid (mkPos p.1)
        | none => ps) positions).length ≤ positions.length + l.length := by
  induction l with
  | nil =>
    intro ps
    simp
  | cons p rest ih =>
    intro ps
    rw [List.foldl_cons]
    cases hres : results p.1 with
    | none =>
      simp only [hres]
      have h1 := ih ps
      simp only [List.length_cons]
      omega
    | some pid =>
      simp only [hres]
      have h1 := ih (jsSet ps pid (mkPos p.1))
      have h2 := length_jsSet_le ps pid (mkPos p.1)
      simp only [List.length_cons]
      omega

/-- The yield-harvester opening fold adds at most one tagged position
per iteration (keys stay duplicate-free throughout). -/
theorem yh_fold_tracked_le (results : Nat → Option String) (now : Nat)
    (l : List (Nat × YH.YHOpportunity)) :
    ∀ positions : List (String × YH.YHPosition),
      (positions.map Prod.fst).Nodup →
      YH.trackedCount (l.foldl (fun ps p =>
        match results p.1 with
        | some pid => jsSet ps pid (YH.mkPosition pid p.2 now)
        | none => ps) positions) ≤ YH.trackedCount positions + l.length := by
  induction l with
  | nil =>
    intro ps hnd
    simp
  | cons p rest ih =>
    intro ps hnd
    rw [List.foldl_cons]
    cases hres : results p.1 with
    | none =>
      simp only [hres]
      have h1 := ih ps hnd
      simp only [List.length_cons]
      omega
    | some pid =>
      simp only [hres]
      have h1 := ih (jsSet ps pid (YH.mkPosition pid p.2 now))
        (nodup_keys_jsSet _ _ hnd)
      have h2 := YH.trackedCount_jsSet_le ps pid (YH.mkPosition pid p.2 now) hnd
      simp only [List.length_cons]
      omega

/-- C10: in both strategies' `managePositions`, when the tracked count is
already at `MAX_POSITIONS` (3) the opening phase changes nothing, and when
it is below the cap the phase opens at most `MAX_POSITIONS - count` new
positions, leaving at most `MAX_POSITIONS` tracked positions (for the
yield-harvester, counting its tagged positions; its state file's keys are
duplicate-free, as every write goes through the same property
assignment). -/
theorem managePositions_never_exceeds_max
    (rpos : List (String × RMM.RMMPositionState)) (ropps : List RMM.Opportunity)
    (rres : Nat → Option String) (rmk : Nat → RMM.RMMPositionState)
    (ypos : List (String × YH.YHPosition)) (yopps : List YH.YHOpportunity)
    (yres : Nat → Option String) (ynow : Nat)
    (hnd : (ypos.map Prod.fst).Nodup) :
    (RMM.MAX_POSITIONS ≤ rpos.length →
      RMM.openingPhase rpos ropps rres rmk = rpos) ∧
    (rpos.length < RMM.MAX_POSITIONS →
      (RMM.openingPhase rpos ropps rres rmk).length ≤ RMM.MAX_POSITIONS) ∧
    (YH.MAX_POSITIONS ≤ YH.trackedCount ypos →
      YH.openingPhase ypos yopps yres ynow = ypos) ∧
    (YH.trackedCount ypos < YH.MAX_POSITIONS →
      YH.trackedCount (YH.openingPhase ypos yopps yres ynow) ≤ YH.MAX_POSITIONS) := by
  refine ⟨?_, ?_, ?_, ?_⟩
  · intro hcap
    simp only [RMM.openingPhase]
    rw [if_pos hcap]
  · intro hlt
    simp only [RMM.openingPhase]
    rw [if_neg (by omega)]
    have h1 := rmm_fold_length_le rres rmk
      ((ropps.take (RMM.MAX_POSITIONS - rpos.length)).enum) rpos
    have h2 : ((ropps.take (RMM.MAX_POSITIONS - rpos.length)).enum).length ≤
        RMM.MAX_POSITIONS - rpos.length := by
      rw [List.enum_length]
      exact List.length_take_le _ _
    omega
  · intro hcap
    simp only [YH.openingPhase]
    rw [if_pos hcap]
  · intro hlt
    simp only [YH.openingPhase]
    rw [if_neg (by omega)]
    have h1 := yh_fold_tracked_le yres ynow
      ((yopps.take (YH.MAX_POSITIONS - YH.trackedCount ypos)).enum) ypos hnd
    have h2 : ((yopps.take (YH.MAX_POSITIONS - YH.trackedCount ypos)).enum).length ≤
        YH.MAX_POSITIONS - YH.trackedCount ypos := by
      rw [List.enum_length]
      exact List.length_take_le _ _
    omega

/-- Witness for C10: a run already holding three positions opens nothing,
and a run with an empty tracked state stays at or below the cap. -/
theorem managePositions_never_exceeds_max_witness :
    RMM.openingPhase rposW [] (fun _ => none)
      (fun _ => { createdAt := 0, assets := [], entryPrices := [] }) = rposW ∧
    YH.trackedCount (YH.openingPhase [] [] (fun _ => none) 0) ≤ YH.MAX_POSITIONS := by
  have h := managePositions_never_exceeds_max rposW []
    (fun _ => none) (fun _ => { createdAt := 0, assets := [], entryPrices := [] })
    [] [] (fun _ => none) 0 (by simp)
  exact ⟨h.1 (by decide), h.2.2.2 (by decide)⟩

/-- C6 amended, yield-harvester half: closing a position blacklists its
denom for 6 hours, and while that cooldown is in effect
`findFundingOpportunities` never selects the denom again — whereas the
RMM strategy ships `IGNORE_BLACKLIST = true`, so its blacklist does not
prevent re-entry (see the counterexample). -/
theorem yh_blacklist_prevents_reentry
    (st : YH.YHState) (d : String) (nowClose t : Nat)
    (markets : List YH.YHMarket) (fundingRates : List (String × YH.YHFunding))
    (log10q : ℚ → ℚ) (hcool : t < nowClose + 6 * 60 * 60 * 1000) :
    jsGet (YH.blacklistAfterClose st d nowClose).assetBlacklist d =
      some (nowClose + 6 * 60 * 60 * 1000) ∧
    ∀ opp ∈ YH.findFundingOpportunities markets fundingRates
        (YH.blacklistAfterClose st d nowClose) t log10q, opp.denom ≠ d := by
  have hget : jsGet (YH.blacklistAfterClose st d nowClose).assetBlacklist d =
      some (nowClose + 6 * 60 * 60 * 1000) := jsGet_jsSet _ _ _
  refine ⟨hget, ?_⟩
  intro opp hopp heq
  unfold YH.findFundingOpportunities at hopp
  rw [List.mem_mergeSort] at hopp
  obtain ⟨market, hm, hsome⟩ := List.mem_filterMap.mp hopp
  obtain ⟨hbl, hdenom⟩ := YH.oppForMarket_some hsome
  have hmd : market.denom = d := by rw [← hdenom, heq]
  rw [hmd] at hbl
  unfold YH.blacklistActive at hbl
  rw [hget] at hbl
  simp only [Bool.and_eq_false_iff, decide_eq_false_iff_not, not_not] at hbl
  rcases hbl with h | h
  · omega
  · omega

/-- Witness for the amended C6 at a concrete input: closing a
`perps/ubtc` position at time 0 blacklists it until 21600000, and a run
at time 0 never selects `perps/ubtc`. -/
theorem yh_blacklist_prevents_reentry_witness :
    jsGet (YH.blacklistAfterClose yhStateW "perps/ubtc" 0).assetBlacklist
      "perps/ubtc" = some (0 + 6 * 60 * 60 * 1000) ∧
    ∀ opp ∈ YH.findFundingOpportunities [yhMarketW] yhFundW
        (YH.blacklistAfterClose yhStateW "perps/ubtc" 0) 0 (fun _ => 0),
      opp.denom ≠ "perps/ubtc" :=
  yh_blacklist_prevents_reentry yhStateW "perps/ubtc" 0 0 [yhMarketW] yhFundW
    (fun _ => 0) (by norm_num)

/-- C6 counterexample: in the RMM strategy the blacklist does not prevent
immediate re-entry.  With the shipped `IGNORE_BLACKLIST = true`, a denom
just added to the blacklist by the close path is selected again as the
top opportunity of a run at `now = lastRotation` (the rotation cooldown
still fully in effect, as the returned state's unchanged blacklist
shows). -/
theorem rmm_blacklisted_asset_reselected :
    stateC6.assetBlacklist = ["perps/ubtc"] ∧
    ((RMM.findDemoOpportunities stateC6
        [{ denom := "perps/ubtc", display := "BTC" }] [] (fun _ => true)
        5000000).1.map fun o => o.denom) = ["perps/ubtc"] ∧
    (RMM.findDemoOpportunities stateC6
        [{ denom := "perps/ubtc", display := "BTC" }] [] (fun _ => true)
        5000000).2.assetBlacklist = ["perps/ubtc"] := by
  refine ⟨rfl, ?_, ?_⟩
  · unfold RMM.findDemoOpportunities
    norm_num [RMM.rotateIfDue, RMM.firstPassOpp, RMM.fallbackOpps,
      RMM.sortByStrength, RMM.calculatePriceChange, RMM.MIN_PRICE_CHANGE,
      RMM.PRICE_HISTORY_LENGTH, RMM.FORCE_TRADE, RMM.IGNORE_BLACKLIST,
      RMM.ROTATION_DELAY_MINUTES, RMM.addAssetsToBlacklist, jsGet, stateC6,
      List.find?, List.filterMap, List.mergeSort]
  · unfold RMM.findDemoOpportunities
    norm_num [RMM.rotateIfDue, RMM.firstPassOpp, RMM.fallbackOpps,
      RMM.sortByStrength, RMM.calculatePriceChange, RMM.MIN_PRICE_CHANGE,
      RMM.PRICE_HISTORY_LENGTH, RMM.FORCE_TRADE, RMM.IGNORE_BLACKLIST,
      RMM.ROTATION_DELAY_MINUTES, RMM.addAssetsToBlacklist, jsGet, stateC6,
      List.find?, List.filterMap, List.mergeSort]

/-- C9 counterexample: with a cache file that exists but cannot be
parsed, and a `fetchDataFn` that would succeed, `tryCache` returns
`{ fromCache: false, error: true, data: null }` and never invokes
`fetchDataFn` — the first `JSON.parse` throws before the fetch, and the
catch's re-read fails again — contradicting the claim that in every
non-fresh-cache case `fetchDataFn` is invoked and its result returned. -/
theorem tryCache_corrupt_skips_fetch :
    tryCache (some CacheContent.corrupt) 1000 500 (Except.ok 42 : JS Nat) =
      ({ fromCache := false, expired := false, error := true, data := none },
        some CacheContent.corrupt, false) := rfl

/-- C9 amended: the full case analysis of `tryCache`.  A parseable cache
file with a truthy `lastUpdated` younger than `cacheTime` serves the
cache without fetching; a missing file or a stale (or falsy) stamp
fetches, and on success writes and returns the fresh data; if the fetch
throws and the file is parseable its stale data is returned marked
expired; if the fetch throws with no readable file, or if the file exists
but cannot be parsed (fetch never attempted), the error object is
returned; every case returns normally. -/
theorem tryCache_cases {δ : Type} (file : Option (CacheContent δ))
    (now cacheTime : Nat) (fetch : JS δ) :
    (∀ lu d, file = some (.parsed lu d) → lu ≠ 0 → (now : Int) - lu < cacheTime →
      tryCache file now cacheTime fetch =
        ({ fromCache := true, expired := false, error := false, data := some d },
          file, false)) ∧
    (∀ lu d fresh, file = some (.parsed lu d) →
      ¬(lu ≠ 0 ∧ (now : Int) - lu < cacheTime) → fetch = .ok fresh →
      tryCache file now cacheTime fetch =
        ({ fromCache := false, expired := false, error := false, data := some fresh },
          some (.parsed now fresh), true)) ∧
    (∀ lu d e, file = some (.parsed lu d) →
      ¬(lu ≠ 0 ∧ (now : Int) - lu < cacheTime) → fetch = .error e →
      tryCache file now cacheTime fetch =
        ({ fromCache := true, expired := true, error := false, data := some d },
          file, true)) ∧
    (∀ fresh, file = none → fetch = .ok fresh →
      tryCache file now cacheTime fetch =
        ({ fromCache := false, expired := false, error := false, data := some fresh },
          some (.parsed now fresh), true)) ∧
    (∀ e, file = none → fetch = .error e →
      tryCache file now cacheTime fetch =
        ({ fromCache := false, expired := false, error := true, data := none },
          file, true)) ∧
    (file = some .corrupt →
      tryCache file now cacheTime fetch =
        ({ fromCache := false, expired := false, error := true, data := none },
          file, false)) := by
  refine ⟨?_, ?_, ?_, ?_, ?_, ?_⟩
  · intro lu d hf h0 hfresh
    subst hf
    simp only [tryCache, if_pos (And.intro h0 hfresh)]
  · intro lu d fresh hf hstale hfetch
    subst hf
    subst hfetch
    simp only [tryCache, if_neg hstale]
  · intro lu d e hf hstale hfetch
    subst hf
    subst hfetch
    simp only [tryCache, if_neg hstale]
  · intro fresh hf hfetch
    subst hf
    subst hfetch
    rfl
  · intro e hf hfetch
    subst hf
    subst hfetch
    rfl
  · intro hf
    subst hf
    rfl

/-- Witness for the amended C9 at concrete inputs: a fresh cache hit
(stamp 900 at time 1000, 500 ms budget) serves the cached value without
fetching, and a missing file fetches and stores. -/
theorem tryCache_cases_witness :
    tryCache (some (CacheContent.parsed 900 7)) 1000 500 (Except.ok 42 : JS Nat) =
      ({ fromCache := true, expired := false, error := false, data := some 7 },
        some (CacheContent.parsed 900 7), false) ∧
    tryCache (none : Option (CacheContent Nat)) 1000 500 (Except.ok 42) =
      ({ fromCache := false, expired := false, error := false, data := some 42 },
        some (CacheContent.parsed 1000 42), true) := by
  constructor
  · exact (tryCache_cases (some (CacheContent.parsed 900 7)) 1000 500
      (Except.ok 42)).1 900 7 rfl (by decide) (by decide)
  · exact (tryCache_cases none 1000 500 (Except.ok 42)).2.2.2.1 42 rfl rfl

end BullBear

namespace BullBear.Json

/-- A non-whitespace head survives `skipWs`. -/
theorem skipWs_not_ws {c : Char} (cs : List Char) (h : isWs c = false) :
    skipWs (c :: cs) = c :: cs := by
  simp [skipWs, h]

/-- A whitespace head is dropped by `skipWs`. -/
theorem skipWs_ws {c : Char} (cs : List Char) (h : isWs c = true) :
    skipWs (c :: cs) = skipWs cs := by
  simp [skipWs, h]

/-- `skipWs` removes an all-whitespace prefix. -/
theorem skipWs_append (pre cs : List Char) (h : ∀ c ∈ pre, isWs c = true) :
    skipWs (pre ++ cs) = skipWs cs := by
  induction pre with
  | nil => rfl
  | cons c p ih =>
    rw [List.cons_append, skipWs_ws _ (h c (List.mem_cons_self ..))]
    exact ih fun x hx => h x (List.mem_cons_of_mem _ hx)

/-- Indentation is whitespace. -/
theorem spaces_ws (n : Nat) : ∀ c ∈ spaces n, isWs c = true := by
  intro c hc
  have he := List.eq_of_mem_replicate hc
  subst he
  decide

/-- `Char.ofNat` of a valid code point reads back as that code point. -/
theorem toNat_ofNat_small {m : Nat} (h : m < 55296) : (Char.ofNat m).toNat = m := by
  have hv : Nat.isValidChar m := Or.inl h
  simp [Char.ofNat, hv, Char.ofNatAux, Char.toNat]
  rfl

/-- Code point of a decimal digit character. -/
theorem toNat_digitChar {n : Nat} (h : n < 10) : (digitChar n).toNat = 48 + n :=
  toNat_ofNat_small (by omega)

/-- Decimal digit characters pass `isDigit`. -/
theorem isDigit_digitChar {n : Nat} (h : n < 10) : isDigit (digitChar n) = true := by
  simp only [isDigit, toNat_digitChar h, Bool.and_eq_true, decide_eq_true_eq]
  omega

/-- The code-point bounds `isDigit` tests. -/
theorem isDigit_toNat {c : Char} (h : isDigit c = true) :
    48 ≤ c.toNat ∧ c.toNat ≤ 57 := by
  simpa [isDigit, Bool.and_eq_true, decide_eq_true_eq] using h

/-- A digit character differs from any character whose code point is
outside the digit range. -/
theorem isDigit_ne {c d : Char} (h : isDigit c = true)
    (hd : d.toNat < 48 ∨ 57 < d.toNat) : c ≠ d := by
  intro he
  have hb := isDigit_toNat h
  rw [he] at hb
  omega

/-- Digit characters are not whitespace. -/
theorem isWs_eq_false_of_digit {c : Char} (h : isDigit c = true) :
    isWs c = false := by
  have hb := isDigit_toNat h
  cases hws : isWs c with
  | false => rfl
  | true =>
    exfalso
    simp only [isWs, Bool.or_eq_true, decide_eq_true_eq] at hws
    rcases hws with ((he | he) | he) | he <;>
      (rw [he] at hb; exact absurd hb (by decide))

/-- Every character of a decimal numeral is a digit. -/
theorem natToChars_digits (n : Nat) : ∀ c ∈ natToChars n, isDigit c = true := by
  induction n using Nat.strong_induction_on with
  | _ n ih =>
    rw [natToChars]
    split
    case isTrue h =>
      intro c hc
      rw [List.mem_singleton] at hc
      subst hc
      exact isDigit_digitChar h
    case isFalse h =>
      intro c hc
      rcases List.mem_append.mp hc with h1 | h2
      · exact ih (n / 10) (Nat.div_lt_self (by omega) (by omega)) c h1
      · rw [List.mem_singleton] at h2
        subst h2
        exact isDigit_digitChar (Nat.mod_lt n (by omega))

/-- Decimal numerals are never empty. -/
theorem natToChars_ne_nil (n : Nat) : natToChars n ≠ [] := by
  rw [natToChars]
  split <;> simp

/-- Reading the printed decimal numeral recovers the number. -/
theorem charsToNat_natToChars (n : Nat) : charsToNat (natToChars n) = n := by
  induction n using Nat.strong_induction_on with
  | _ n ih =>
    rw [natToChars]
    split
    case isTrue h =>
      simp only [charsToNat, List.foldl_cons, List.foldl_nil, toNat_digitChar h]
      omega
    case isFalse h =>
      rw [charsToNat, List.foldl_append]
      have hih := ih (n / 10) (Nat.div_lt_self (by omega) (by omega))
      rw [charsToNat] at hih
      simp only [hih, List.foldl_cons, List.foldl_nil,
        toNat_digitChar (Nat.mod_lt n (by omega))]
      omega

/-- `takeWhile`/`dropWhile` split an all-`p` prefix off exactly. -/
theorem takeWhile_all_append {p : Char → Bool} (l1 l2 : List Char)
    (h1 : ∀ c ∈ l1, p c = true) (h2 : headNot p l2) :
    (l1 ++ l2).takeWhile p = l1 ∧ (l1 ++ l2).dropWhile p = l2 := by
  induction l1 with
  | nil =>
    cases l2 with
    | nil => simp
    | cons c cs =>
      rw [headNot] at h2
      simp [List.takeWhile_cons, List.dropWhile_cons, h2]
  | cons c l ih =>
    have hc := h1 c (List.mem_cons_self ..)
    have hrec := ih fun x hx => h1 x (List.mem_cons_of_mem _ hx)
    simp [List.takeWhile_cons, List.dropWhile_cons, hc, hrec.1, hrec.2]

/-- Hex digits print and read back consistently. -/
theorem parseHexDigit_hexDigit {m : Nat} (h : m < 16) :
    parseHexDigit (hexDigit m) = some m := by
  rw [hexDigit]
  split
  case isTrue h10 =>
    have ht : (Char.ofNat (48 + m)).toNat = 48 + m := toNat_ofNat_small (by omega)
    rw [parseHexDigit, ht, if_pos (by omega)]
    congr 1
    omega
  case isFalse h10 =>
    have ht : (Char.ofNat (87 + m)).toNat = 87 + m := toNat_ofNat_small (by omega)
    rw [parseHexDigit, ht, if_neg (by omega), if_pos (by omega)]
    congr 1
    omega

/-- Parsing a string body undoes `JSON.stringify`'s escaping: the decoded
content is the original string and the text after the closing quote is
untouched. -/
theorem parseStringBody_escape (s rest : List Char) :
    parseStringBody (escapeChars s ++ quoteChar :: rest) = some (s, rest) := by
  induction s with
  | nil =>
    rw [escapeChars]
    rw [show (([] : List Char).flatMap escChar ++ quoteChar :: rest) =
      quoteChar :: rest by simp]
    rw [parseStringBody.eq_def]
    simp
  | cons c s ih =>
    rw [escapeChars] at ih ⊢
    rw [List.flatMap_cons, List.append_assoc]
    generalize s.flatMap escChar ++ quoteChar :: rest = T at ih
    rw [escChar]
    have h0 : parseHexDigit '0' = some 0 := by decide
    by_cases h1 : c = quoteChar
    · subst h1
      rw [if_pos rfl, List.cons_append, List.singleton_append, parseStringBody.eq_def]
      simp [quoteChar, backslashChar, ih]
    · rw [if_neg h1]
      by_cases h2 : c = backslashChar
      · subst h2
        rw [if_pos rfl, List.cons_append, List.singleton_append, parseStringBody.eq_def]
        simp [quoteChar, backslashChar, ih]
      · rw [if_neg h2]
        by_cases h3 : c = Char.ofNat 8
        · subst h3
          rw [if_pos rfl, List.cons_append, List.singleton_append, parseStringBody.eq_def]
          simp [quoteChar, backslashChar, ih]
        · rw [if_neg h3]
          by_cases h4 : c = Char.ofNat 9
          · subst h4
            rw [if_pos rfl, List.cons_append, List.singleton_append, parseStringBody.eq_def]
            simp [quoteChar, backslashChar, ih]
          · rw [if_neg h4]
            by_cases h5 : c = nlChar
            · subst h5
              rw [if_pos rfl, List.cons_append, List.singleton_append, parseStringBody.eq_def]
              simp [quoteChar, backslashChar, nlChar, ih]
            · rw [if_neg h5]
              by_cases h6 : c = Char.ofNat 12
              · subst h6
                rw [if_pos rfl, List.cons_append, List.singleton_append, parseStringBody.eq_def]
                simp [quoteChar, backslashChar, ih]
              · rw [if_neg h6]
                by_cases h7 : c = Char.ofNat 13
                · subst h7
                  rw [if_pos rfl, List.cons_append, List.singleton_append, parseStringBody.eq_def]
                  simp [quoteChar, backslashChar, ih]
                · rw [if_neg h7]
                  by_cases h8 : c.toNat < 32
                  · rw [if_pos h8]
                    have hhi : parseHexDigit (hexDigit (c.toNat / 16)) =
                        some (c.toNat / 16) := parseHexDigit_hexDigit (by omega)
                    have hlo : parseHexDigit (hexDigit (c.toNat % 16)) =
                        some (c.toNat % 16) := parseHexDigit_hexDigit (by omega)
                    rw [List.cons_append, parseStringBody.eq_def]
                    simp [quoteChar, backslashChar, h0, hhi, hlo, ih]
                    rw [show (c.toNat / 16 * 16 + c.toNat % 16) = c.toNat by omega]
                    exact Char.ofNat_toNat c
                  · rw [if_neg h8]
                    rw [List.singleton_append, parseStringBody.eq_def]
                    simp only []
                    rw [if_neg h1, if_neg h2, ih]
                    rfl

/-- The printed items of an array, followed by its closer, regrouped as
first item plus suffix. -/
theorem stringifyItems_shape (ind j : Nat) (rest : List Char) :
    ∀ (xs : List JValue) (x : JValue),
      stringifyItems ind x xs ++ nlChar :: (spaces j ++ (']' :: rest)) =
        spaces ind ++ (stringifyVal ind x ++ itemsSuffix ind xs j rest) := by
  intro xs
  induction xs with
  | nil =>
    intro x
    rw [stringifyItems, itemsSuffix]
    simp
  | cons y ys ih =>
    intro x
    rw [stringifyItems, itemsSuffix]
    rw [List.append_assoc, List.append_assoc]
    congr 2
    rw [← ih y]
    simp

/-- The printed fields of an object, followed by its closer, regrouped
as first field plus suffix. -/
theorem stringifyFields_shape (ind j : Nat) (rest : List Char) :
    ∀ (fs : List (List Char × JValue)) (f : List Char × JValue),
      stringifyFields ind f fs ++ nlChar :: (spaces j ++ (rbraceChar :: rest)) =
        spaces ind ++ (quoteChar :: (escapeChars f.1 ++
          quoteChar :: ':' :: ' ' :: (stringifyVal ind f.2 ++
            fieldsSuffix ind fs j rest))) := by
  intro fs
  induction fs with
  | nil =>
    intro f
    obtain ⟨key, v⟩ := f
    rw [stringifyFields, fieldsSuffix]
    simp
  | cons g gs ih =>
    intro f
    obtain ⟨key, v⟩ := f
    rw [stringifyFields, fieldsSuffix]
    simp only [List.append_assoc, List.cons_append]
    rw [ih g]

/-- Every printed value starts with a non-whitespace character that is
neither closer. -/
theorem stringifyVal_head (ind : Nat) (v : JValue) :
    ∃ c cs, stringifyVal ind v = c :: cs ∧ isWs c = false ∧
      c ≠ ']' ∧ c ≠ rbraceChar := by
  cases v with
  | jnull => exact ⟨'n', _, by rw [stringifyVal], by decide, by decide, by decide⟩
  | jbool b =>
    cases b with
    | true => exact ⟨'t', _, by rw [stringifyVal], by decide, by decide, by decide⟩
    | false => exact ⟨'f', _, by rw [stringifyVal], by decide, by decide, by decide⟩
  | jnum n =>
    rw [stringifyVal, intToChars]
    split
    case isTrue h =>
      exact ⟨Char.ofNat 45, _, rfl, by decide, by decide, by decide⟩
    case isFalse h =>
      cases hnc : natToChars n.toNat with
      | nil => exact absurd hnc (natToChars_ne_nil _)
      | cons d ds =>
        have hd : isDigit d = true :=
          natToChars_digits n.toNat d (hnc ▸ List.mem_cons_self ..)
        exact ⟨d, ds, rfl, isWs_eq_false_of_digit hd,
          isDigit_ne hd (by decide), isDigit_ne hd (by decide)⟩
  | jstr s =>
    exact ⟨quoteChar, _, by rw [stringifyVal], by decide, by decide, by decide⟩
  | jarr xs =>
    cases xs with
    | nil => exact ⟨'[', _, by rw [stringifyVal], by decide, by decide, by decide⟩
    | cons x xs =>
      exact ⟨'[', _, by rw [stringifyVal], by decide, by decide, by decide⟩
  | jobj fs =>
    cases fs with
    | nil =>
      exact ⟨lbraceChar, _, by rw [stringifyVal], by decide, by decide, by decide⟩
    | cons f fs =>
      exact ⟨lbraceChar, _, by rw [stringifyVal], by decide, by decide, by decide⟩

/-- `parseVal` ignores leading whitespace. -/
theorem parseVal_ws (fuel : Nat) (pre cs : List Char)
    (h : ∀ c ∈ pre, isWs c = true) :
    parseVal fuel (pre ++ cs) = parseVal fuel cs := by
  cases fuel with
  | zero => simp only [parseVal]
  | succ f =>
    simp only [parseVal]
    rw [skipWs_append pre cs h]

/-- `parseItems` ignores leading whitespace. -/
theorem parseItems_ws (fuel : Nat) (pre cs : List Char)
    (h : ∀ c ∈ pre, isWs c = true) :
    parseItems fuel (pre ++ cs) = parseItems fuel cs := by
  cases fuel with
  | zero => simp only [parseItems]
  | succ f =>
    simp only [parseItems]
    rw [parseVal_ws (f + 1) pre cs h]

/-- `parseFields` ignores leading whitespace. -/
theorem parseFields_ws (fuel : Nat) (pre cs : List Char)
    (h : ∀ c ∈ pre, isWs c = true) :
    parseFields fuel (pre ++ cs) = parseFields fuel cs := by
  cases fuel with
  | zero => simp only [parseFields]
  | succ f =>
    simp only [parseFields]
    rw [skipWs_append pre cs h]

/-- On a digit head, `parseVal` reads the maximal digit run as an
integer. -/
theorem parseVal_digit_entry (f : Nat) (c : Char) (cs : List Char)
    (hc : isDigit c = true) :
    parseVal (f + 1) (c :: cs) =
      some (.jnum (charsToNat ((c :: cs).takeWhile isDigit) : Int),
        (c :: cs).dropWhile isDigit) := by
  simp only [parseVal, skipWs_not_ws cs (isWs_eq_false_of_digit hc)]
  rw [if_neg (isDigit_ne hc (by decide)), if_neg (isDigit_ne hc (by decide)),
    if_neg (isDigit_ne hc (by decide)), if_neg (isDigit_ne hc (by decide)),
    if_neg (isDigit_ne hc (by decide)), if_neg (isDigit_ne hc (by decide)),
    if_neg (isDigit_ne hc (by decide)), if_pos hc]

/-- The suffix after an array item never starts with a digit. -/
theorem headNot_itemsSuffix (ind : Nat) (xs : List JValue) (j : Nat)
    (rest : List Char) : headNot isDigit (itemsSuffix ind xs j rest) := by
  cases xs with
  | nil =>
    rw [itemsSuffix]
    show isDigit nlChar = false
    decide
  | cons y ys =>
    rw [itemsSuffix]
    show isDigit ',' = false
    decide

/-- The suffix after an object field never starts with a digit. -/
theorem headNot_fieldsSuffix (ind : Nat) (fs : List (List Char × JValue))
    (j : Nat) (rest : List Char) : headNot isDigit (fieldsSuffix ind fs j rest) := by
  cases fs with
  | nil =>
    rw [fieldsSuffix]
    show isDigit nlChar = false
    decide
  | cons g gs =>
    rw [fieldsSuffix]
    show isDigit ',' = false
    decide

/-- Printed values are never empty. -/
theorem stringifyVal_length_pos (ind : Nat) (v : JValue) :
    1 ≤ (stringifyVal ind v).length := by
  obtain ⟨c0, cs0, h0, _, _, _⟩ := stringifyVal_head ind v
  rw [h0]
  simp

/-- Any fuel at least the input's length makes the parser undo the
printer. -/
theorem roundTrip_all : ∀ fuel, RoundTrip fuel := by
  intro fuel
  induction fuel using Nat.strong_induction_on with
  | _ fuel ih =>
    have hA : ∀ (ind : Nat) (v : JValue) (rest : List Char),
        (stringifyVal ind v ++ rest).length ≤ fuel → headNot isDigit rest →
        parseVal fuel (stringifyVal ind v ++ rest) = some (v, rest) := by
      intro ind v rest hlen hrest
      cases fuel with
      | zero =>
        exfalso
        have h1 := stringifyVal_length_pos ind v
        rw [List.length_append] at hlen
        omega
      | succ f =>
        cases v with
        | jnull =>
          rw [show stringifyVal ind JValue.jnull ++ rest =
            'n' :: 'u' :: 'l' :: 'l' :: rest from by rw [stringifyVal]; rfl]
          simp only [parseVal]
          rw [skipWs_not_ws _ (by decide)]
          simp
        | jbool b =>
          cases b with
          | true =>
            rw [show stringifyVal ind (JValue.jbool true) ++ rest =
              't' :: 'r' :: 'u' :: 'e' :: rest from by rw [stringifyVal]; rfl]
            simp only [parseVal]
            rw [skipWs_not_ws _ (by decide)]
            simp
          | false =>
            rw [show stringifyVal ind (JValue.jbool false) ++ rest =
              'f' :: 'a' :: 'l' :: 's' :: 'e' :: rest from by rw [stringifyVal]; rfl]
            simp only [parseVal]
            rw [skipWs_not_ws _ (by decide)]
            simp
        | jnum n =>
          rw [show stringifyVal ind (JValue.jnum n) = intToChars n from by
            rw [stringifyVal]]
          rw [intToChars]
          by_cases hneg : n < 0
          · rw [if_pos hneg, List.cons_append]
            simp only [parseVal]
            rw [skipWs_not_ws _ (by decide)]
            simp only []
            rw [if_pos trivial]
            have hsplit := takeWhile_all_append (natToChars n.natAbs) rest
              (natToChars_digits _) hrest
            rw [hsplit.1, hsplit.2]
            cases hnc : natToChars n.natAbs with
            | nil => exact absurd hnc (natToChars_ne_nil _)
            | cons d ds =>
              simp only []
              rw [← hnc, charsToNat_natToChars]
              have hval : -((n.natAbs : Nat) : Int) = n := by omega
              rw [hval]
              rw [if_neg (by decide : ¬ (Char.ofNat 45 = quoteChar)),
                if_neg (by decide : ¬ (Char.ofNat 45 = lbraceChar))]
              simp
          · rw [if_neg hneg]
            cases hnc : natToChars n.toNat with
            | nil => exact absurd hnc (natToChars_ne_nil _)
            | cons d ds =>
              have hd : isDigit d = true :=
                natToChars_digits _ d (hnc ▸ List.mem_cons_self ..)
              rw [List.cons_append]
              rw [parseVal_digit_entry f d (ds ++ rest) hd]
              have hds : ∀ c ∈ d :: ds, isDigit c = true := by
                rw [← hnc]
                exact natToChars_digits _
              have hsplit := takeWhile_all_append (d :: ds) rest hds hrest
              rw [show d :: (ds ++ rest) = (d :: ds) ++ rest from rfl]
              rw [hsplit.1, hsplit.2, ← hnc, charsToNat_natToChars]
              have hval : ((n.toNat : Nat) : Int) = n :=
                Int.toNat_of_nonneg (by omega)
              rw [hval]
        | jstr s =>
          rw [show stringifyVal ind (JValue.jstr s) ++ rest =
            quoteChar :: (escapeChars s ++ quoteChar :: rest) from by
            rw [stringifyVal]; simp]
          simp only [parseVal]
          rw [skipWs_not_ws _ (by decide)]
          simp only []
          rw [if_pos trivial]
          rw [parseStringBody_escape]
          rfl
        | jarr xs =>
          cases xs with
          | nil =>
            rw [show stringifyVal ind (JValue.jarr []) ++ rest =
              '[' :: ']' :: rest from by rw [stringifyVal]; rfl]
            simp only [parseVal]
            rw [skipWs_not_ws _ (by decide)]
            have h2 : skipWs (']' :: rest) = ']' :: rest :=
              skipWs_not_ws _ (by decide)
            simp [h2]
            decide
          | cons x xs =>
            have hcanon : stringifyVal ind (JValue.jarr (x :: xs)) ++ rest =
                '[' :: nlChar :: (spaces (ind + 2) ++
                  (stringifyVal (ind + 2) x ++ itemsSuffix (ind + 2) xs ind rest)) := by
              rw [stringifyVal]
              simp only [List.cons_append, List.append_assoc]
              rw [← stringifyItems_shape (ind + 2) ind rest xs x]
              simp
            rw [hcanon]
            simp only [parseVal]
            rw [skipWs_not_ws _ (by decide)]
            simp only []
            rw [if_pos trivial]
            rw [skipWs_ws _ (by decide), skipWs_append _ _ (spaces_ws _)]
            obtain ⟨c0, cs0, hx0, hw0, hr0, hb0⟩ := stringifyVal_head (ind + 2) x
            rw [hx0, List.cons_append, skipWs_not_ws _ hw0]
            simp only []
            rw [if_neg hr0]
            rw [show c0 :: (cs0 ++ itemsSuffix (ind + 2) xs ind rest) =
              stringifyVal (ind + 2) x ++ itemsSuffix (ind + 2) xs ind rest from by
              rw [hx0, List.cons_append]]
            have hlen2 : (stringifyVal (ind + 2) x ++
                itemsSuffix (ind + 2) xs ind rest).length ≤ f := by
              have hce := congrArg List.length hcanon
              simp only [List.length_append, List.length_cons, spaces,
                List.length_replicate] at hce hlen ⊢
              omega
            rw [(ih f (by omega)).2.1 (ind + 2) x xs ind rest hlen2]
            rfl
        | jobj fs =>
          cases fs with
          | nil =>
            rw [show stringifyVal ind (JValue.jobj []) ++ rest =
              lbraceChar :: rbraceChar :: rest from by rw [stringifyVal]; rfl]
            simp only [parseVal]
            rw [skipWs_not_ws _ (by decide)]
            have h2 : skipWs (Char.ofNat 125 :: rest) = Char.ofNat 125 :: rest :=
              skipWs_not_ws _ (by decide)
            simp [h2, lbraceChar, rbraceChar, quoteChar]
          | cons f0 fs =>
            have hcanon : stringifyVal ind (JValue.jobj (f0 :: fs)) ++ rest =
                lbraceChar :: nlChar :: (spaces (ind + 2) ++
                  (quoteChar :: (escapeChars f0.1 ++ quoteChar :: ':' :: ' ' ::
                    (stringifyVal (ind + 2) f0.2 ++
                      fieldsSuffix (ind + 2) fs ind rest)))) := by
              rw [stringifyVal]
              simp only [List.cons_append, List.append_assoc]
              rw [← stringifyFields_shape (ind + 2) ind rest fs f0]
              simp
            rw [hcanon]
            simp only [parseVal]
            rw [skipWs_not_ws _ (by decide)]
            simp only []
            rw [if_pos trivial]
            rw [skipWs_ws _ (by decide), skipWs_append _ _ (spaces_ws _)]
            rw [skipWs_not_ws _ (by decide)]
            simp only []
            have hlen2 : (quoteChar :: (escapeChars f0.1 ++
                quoteChar :: ':' :: ' ' :: (stringifyVal (ind + 2) f0.2 ++
                  fieldsSuffix (ind + 2) fs ind rest))).length ≤ f := by
              have hce := congrArg List.length hcanon
              simp only [List.length_append, List.length_cons, spaces,
                List.length_replicate] at hce hlen ⊢
              omega
            rw [(ih f (by omega)).2.2 (ind + 2) f0.1 f0.2 fs ind rest hlen2]
            rfl
    refine ⟨hA, ?_, ?_⟩
    · intro ind x xs j rest hlen
      cases fuel with
      | zero =>
        exfalso
        have h1 := stringifyVal_length_pos ind x
        rw [List.length_append] at hlen
        omega
      | succ f =>
        simp only [parseItems]
        rw [hA ind x (itemsSuffix ind xs j rest) hlen (headNot_itemsSuffix _ _ _ _)]
        simp only []
        cases xs with
        | nil =>
          rw [itemsSuffix]
          rw [skipWs_ws _ (by decide), skipWs_append _ _ (spaces_ws _)]
          rw [skipWs_not_ws _ (by decide)]
          simp only []
          simp
        | cons y ys =>
          rw [itemsSuffix]
          rw [skipWs_not_ws _ (by decide)]
          simp only []
          rw [if_pos trivial]
          have hws : ∀ c ∈ nlChar :: spaces ind, isWs c = true := by
            intro c hc
            rcases List.mem_cons.mp hc with h1 | h1
            · subst h1; decide
            · exact spaces_ws ind c h1
          rw [show nlChar :: (spaces ind ++ (stringifyVal ind y ++
              itemsSuffix ind ys j rest)) =
            (nlChar :: spaces ind) ++ (stringifyVal ind y ++
              itemsSuffix ind ys j rest) from by simp]
          rw [parseItems_ws f _ _ hws]
          have hlen2 : (stringifyVal ind y ++ itemsSuffix ind ys j rest).length ≤ f := by
            have h1 := stringifyVal_length_pos ind x
            rw [itemsSuffix] at hlen
            simp only [List.length_append, List.length_cons, spaces,
              List.length_replicate] at hlen ⊢
            omega
          rw [(ih f (by omega)).2.1 ind y ys j rest hlen2]
          rfl
    · intro ind key v fs j rest hlen
      cases fuel with
      | zero =>
        exfalso
        rw [List.length_cons] at hlen
        omega
      | succ f =>
        simp only [parseFields]
        rw [skipWs_not_ws _ (by decide)]
        simp only []
        rw [if_pos trivial]
        rw [parseStringBody_escape key (':' :: ' ' :: (stringifyVal ind v ++
          fieldsSuffix ind fs j rest))]
        simp only []
        rw [skipWs_not_ws _ (by decide)]
        simp only []
        rw [if_pos trivial]
        rw [show (' ' :: (stringifyVal ind v ++ fieldsSuffix ind fs j rest)) =
          [' '] ++ (stringifyVal ind v ++ fieldsSuffix ind fs j rest) from rfl]
        rw [parseVal_ws (f + 1) [' '] _ (by intro c hc; simp at hc; subst hc; decide)]
        have hlen2 : (stringifyVal ind v ++ fieldsSuffix ind fs j rest).length ≤ f + 1 := by
          simp only [List.length_cons, List.length_append] at hlen ⊢
          omega
        rw [hA ind v (fieldsSuffix ind fs j rest) hlen2 (headNot_fieldsSuffix _ _ _ _)]
        simp only []
        cases fs with
        | nil =>
          rw [fieldsSuffix]
          rw [skipWs_ws _ (by decide), skipWs_append _ _ (spaces_ws _)]
          rw [skipWs_not_ws _ (by decide)]
          simp only []
          rw [if_pos trivial]
          rw [if_neg (by decide : ¬ (rbraceChar = Char.ofNat 44))]
        | cons g gs =>
          rw [fieldsSuffix]
          rw [skipWs_not_ws _ (by decide)]
          simp only []
          rw [if_pos trivial]
          have hws : ∀ c ∈ nlChar :: spaces ind, isWs c = true := by
            intro c hc
            rcases List.mem_cons.mp hc with h1 | h1
            · subst h1; decide
            · exact spaces_ws ind c h1
          rw [show nlChar :: (spaces ind ++ (quoteChar :: (escapeChars g.1 ++
              quoteChar :: ':' :: ' ' :: (stringifyVal ind g.2 ++
                fieldsSuffix ind gs j rest)))) =
            (nlChar :: spaces ind) ++ (quoteChar :: (escapeChars g.1 ++
              quoteChar :: ':' :: ' ' :: (stringifyVal ind g.2 ++
                fieldsSuffix ind gs j rest))) from by simp]
          rw [parseFields_ws f _ _ hws]
          have hlen3 : (quoteChar :: (escapeChars g.1 ++
              quoteChar :: ':' :: ' ' :: (stringifyVal ind g.2 ++
                fieldsSuffix ind gs j rest))).length ≤ f := by
            have h1 := stringifyVal_length_pos ind v
            rw [fieldsSuffix] at hlen
            simp only [List.length_append, List.length_cons, spaces,
              List.length_replicate] at hlen ⊢
            omega
          rw [(ih f (by omega)).2.2 ind g.1 g.2 gs j rest hlen3]
          rfl

/-- The printer/parser round trip at top level: `JSON.parse` of
`JSON.stringify(v, null, 2)` recovers `v` exactly. -/
theorem stringify_parse_roundtrip (v : JValue) :
    parseTop (stringifyVal 0 v) = some v := by
  have h := (roundTrip_all ((stringifyVal 0 v).length + 1)).1 0 v []
    (by simp) trivial
  rw [List.append_nil] at h
  rw [parseTop, h]
  rfl

end BullBear.Json

/-- C8: for every JSON-representable strategy state `s`, writing it with
`saveState(s)` and reading it back with `loadState()` yields a state equal
to `s`: the JSON file written to disk can be read back unchanged. -/
theorem BullBear.Json.loadState_saveState_roundtrip (s : JValue) :
    loadState (saveState s) = s := by
  rw [saveState, loadState, stringify_parse_roundtrip]
  rfl
